import Mathlib

/-!
Verification of the scheduling engine of `src/main.py` (OpSTEM_Scheduler).
The engine is `_generate_schedule` together with `_score_candidate` and
the small utility functions they call.  The definitions below are a
shallow embedding of that code: one Lean definition per Python
function or loop, with Python dicts rendered as association lists
(first-match lookup and in-place update, matching dict semantics built
by repeated assignment), Python sets of strings as `Finset String` or
membership in a `List String`, and the call to `random.choice` in the
fallback-fill pass rendered as an explicit oracle `r : Nat → Nat`
giving the index drawn at each call (any index is a possible draw, so
quantifying over the oracle covers exactly the possible behaviours).
-/

namespace OpSTEM

/-- One staff roster row: the columns of the staff CSV that the engine
reads.  `nameCol` is the "Name:" column, `pp1`-`pp3` the partner
preference columns, `slot1`-`slot3` the three time-slot availability
columns, `vetCol` the "Veteran?" column. -/
structure StaffRow where
  nameCol : String
  pp1 : String
  pp2 : String
  pp3 : String
  firstChoice : String
  secondChoice : String
  slot1 : String
  slot2 : String
  slot3 : String
  vetCol : String
deriving DecidableEq

/-- One course roster row: the columns of the course CSV that the engine
reads.  `minRequired` is the "Min # of SPTs Required" column; it is kept
here because the specification talks about it, although the engine code
never reads it. -/
structure CourseRow where
  course : String
  sectionCol : String
  startTime : String
  endTime : String
  minRequired : String
deriving DecidableEq

/-- `str.strip()` of Python, written by structural recursion on the
character list so that concrete instances reduce inside the kernel
(the core `String.trim` is an equivalent but kernel-opaque loop). -/
def strTrim (s : String) : String :=
  ⟨((s.data.dropWhile Char.isWhitespace).reverse.dropWhile Char.isWhitespace).reverse⟩

/-- `str.lower()` of Python, by structural recursion on the character
list (equivalent to the kernel-opaque core `String.toLower`). -/
def strToLower (s : String) : String := ⟨s.data.map Char.toLower⟩

/-- `_truthy` of main.py: the fixed vocabulary of affirmative tokens. -/
def truthy (val : String) : Bool :=
  let s := strToLower (strTrim val)
  s == "1" || s == "y" || s == "yes" || s == "true" || s == "t" ||
  s == "x" || s == "✓" || s == "available" || s == "avail"

def TS1 : String := "9:10AM-11:05AM"
def TS2 : String := "11:20AM-1:15PM"
def TS3 : String := "1:30PM-2:20PM"

/-- `TIME_SLOTS` of main.py. -/
def TIME_SLOTS : List String := [TS1, TS2, TS3]

/-- The derived `_name` field: `_normalize_name(s.get("Name:", ""))`. -/
def sName (s : StaffRow) : String := strTrim s.nameCol

/-- The derived `_avail` mapping, read back at a given slot.  In the
engine the map has exactly the three canonical slots as keys and
lookups always use a canonical slot, so any other argument yields
`false` (mirroring `dict.get(slot, False)`). -/
def sAvail (s : StaffRow) (slot : String) : Bool :=
  if slot = TS1 then truthy s.slot1
  else if slot = TS2 then truthy s.slot2
  else if slot = TS3 then truthy s.slot3
  else false

/-- The derived `_veteran` field. -/
def sVet (s : StaffRow) : Bool := truthy s.vetCol

/-- Assignment into `staff_by_name[name] = s`: a Python dict keyed by the
normalized name keeps the first-insertion position and replaces the
value on a repeated key. -/
def upsertStaff : List StaffRow → StaffRow → List StaffRow
  | [], s => [s]
  | t :: rest, s =>
      if sName t = sName s then s :: rest else t :: upsertStaff rest s

/-- The staff-metadata loop of `_generate_schedule` (lines 110-122):
rows with an empty normalized name are skipped, the rest are keyed by
name; the result is `staff_by_name.values()` in insertion order. -/
def buildStaff (rows : List StaffRow) : List StaffRow :=
  rows.foldl (fun acc s => if sName s = "" then acc else upsertStaff acc s) []

/-- `_score_candidate` of main.py, line for line.  Note the Python
guards `if course_name and ...`: an empty (after trimming and
lowercasing) course name disables both course-choice bonuses. -/
def score_candidate (staff : StaffRow) (course_row : CourseRow)
    (already_in_session_names : Finset String) : Nat :=
  let course_name := strToLower (strTrim course_row.course)
  let score : Nat := 0
  let score :=
    if course_name ≠ "" ∧ strToLower (strTrim staff.firstChoice) = course_name
    then score + 6 else score
  let score :=
    if course_name ≠ "" ∧ strToLower (strTrim staff.secondChoice) = course_name
    then score + 3 else score
  let prefs : Finset String := {strTrim staff.pp1, strTrim staff.pp2, strTrim staff.pp3}
  let overlap := prefs ∩ already_in_session_names
  let score := if overlap.Nonempty then score + 4 * overlap.card else score
  let score := if truthy staff.vetCol then score + 2 else score
  score

/-- The `block_map` lookup of lines 128-138, with the fallthrough
`block_map.get(slot, slot)`. -/
def blockMap (slot : String) : String :=
  if slot = "9:10AM-9:55AM" then TS1
  else if slot = "9:10AM-10:00AM" then TS1
  else if slot = "10:15AM-11:05AM" then TS1
  else if slot = "11:20AM-12:05PM" then TS2
  else if slot = "11:20AM-12:10PM" then TS2
  else if slot = "12:25PM-1:15PM" then TS2
  else if slot = "1:30PM-2:15PM" then TS3
  else if slot = "2:25PM-3:30PM" then TS3
  else slot

/-- The slot computed for a course row (line 127 then remapped). -/
def rowSlot (c : CourseRow) : String :=
  blockMap (strTrim c.startTime ++ "-" ++ strTrim c.endTime)

/-- The session-building loop of lines 125-140: rows whose resolved slot
is not canonical are dropped; the rest keep input order. -/
def buildSessions (course_rows : List CourseRow) : List (String × CourseRow) :=
  course_rows.filterMap (fun c =>
    if rowSlot c ∈ TIME_SLOTS then some (rowSlot c, c) else none)

/-- The result-map key of line 147. -/
def sessionKey (slot : String) (c : CourseRow) : String :=
  slot ++ "|" ++ c.course ++ "|" ++ c.sectionCol

/-- One element of an `assigned` list. -/
structure Assigned where
  name : String
  veteran : Bool
deriving DecidableEq

/-- One value of the `results` dict. -/
structure Session where
  meta : CourseRow
  assigned : List Assigned
deriving DecidableEq

/-- The `results` dict, in insertion order. -/
abbrev Results := List (String × Session)

/-- The mutable state of `_generate_schedule`: `results`,
`placed_overall` and `staff_load`. -/
structure SchedState where
  results : Results
  placed : List String
  load : List (String × Nat)
deriving DecidableEq

/-- `results[key] = value`: replace in place on an existing key,
append on a fresh key. -/
def upsertResult : Results → String → Session → Results
  | [], k, v => [(k, v)]
  | p :: rest, k, v =>
      if p.1 = k then (k, v) :: rest else p :: upsertResult rest k v

/-- Mutation of `results[key]["assigned"]` through a function `f`
(append or element removal); touches the first entry with the key and
leaves every `meta` unchanged. -/
def modifyAssigned : Results → String → (List Assigned → List Assigned) → Results
  | [], _, _ => []
  | p :: rest, k, f =>
      if p.1 = k then (p.1, ⟨p.2.meta, f p.2.assigned⟩) :: rest
      else p :: modifyAssigned rest k f

/-- Lookup of a session value by key. -/
def findSession (rs : Results) (k : String) : Option Session :=
  (rs.find? (fun p => p.1 = k)).map (·.2)

/-- `results[key]["assigned"]` (empty when the key is absent; in the
engine the key is always present at every read). -/
def getAssigned (rs : Results) (k : String) : List Assigned :=
  match findSession rs k with
  | some sess => sess.assigned
  | none => []

/-- `staff_load[name] += 1` on a `Counter`. -/
def incLoad : List (String × Nat) → String → List (String × Nat)
  | [], n => [(n, 1)]
  | p :: rest, n =>
      if p.1 = n then (p.1, p.2 + 1) :: rest else p :: incLoad rest n

/-- `any(a.veteran for a in l)`. -/
def hasVet (l : List Assigned) : Bool := l.any (·.veteran)

/-- `sum(a.veteran for a in l)`. -/
def countVet (l : List Assigned) : Nat := (l.filter (·.veteran)).length

/-- The selection of lines 158-160: build scored pairs, stable-sort
descending by score, take the head.  A stable descending sort followed
by taking the head returns the earliest element of maximal score, which
is what this recursion computes (ties prefer the earlier element). -/
def pickBetter (f : StaffRow → Nat) (s : StaffRow) : Option StaffRow → Option StaffRow
  | none => some s
  | some b => if f b > f s then some b else some s

def pickBest (f : StaffRow → Nat) : List StaffRow → Option StaffRow
  | [] => none
  | s :: rest => pickBetter f s (pickBest f rest)

/-- One placement (lines 162-165 and the analogous append sites): append
the entry to the assigned list of the key, add the name to
`placed_overall`, bump `staff_load`. -/
def placeOne (st : SchedState) (k : String) (a : Assigned) : SchedState :=
  { results := modifyAssigned st.results k (fun l => l ++ [a]),
    placed := a.name :: st.placed,
    load := incLoad st.load a.name }

/-- The `while len(results[key]["assigned"]) < 2 and candidates` loop of
lines 156-166.  The assigned list starts empty and each iteration
appends exactly one entry, so fuel 2 together with the loop guard
reproduces the loop exactly. -/
def assignLoop (key : String) (c : CourseRow) :
    Nat → List StaffRow → SchedState → SchedState
  | 0, _, st => st
  | fuel + 1, cands, st =>
      if (getAssigned st.results key).length < 2 ∧ cands ≠ [] then
        match pickBest (fun s => score_candidate s c
            ((getAssigned st.results key).map (·.name)).toFinset) cands with
        | none => st
        | some chosen =>
            assignLoop key c fuel
              (cands.filter (fun s => sName s ≠ sName chosen))
              (placeOne st key ⟨sName chosen, sVet chosen⟩)
      else st

/-- The "ensure at least one veteran" block of lines 168-179. -/
def ensureVet (staffL : List StaffRow) (slot : String) (key : String)
    (st : SchedState) : SchedState :=
  if hasVet (getAssigned st.results key) then st
  else
    match (staffL.filter (fun s =>
        sVet s && sAvail s slot && decide (sName s ∉ st.placed))).head? with
    | none => st
    | some v => placeOne st key ⟨sName v, true⟩

/-- The body of the STEP 1 loop for one `(slot, course_row)` pair
(lines 146-179). -/
def step1Session (staffL : List StaffRow) (st : SchedState)
    (p : String × CourseRow) : SchedState :=
  let slot := p.1
  let c := p.2
  let key := sessionKey slot c
  let st1 : SchedState := { st with results := upsertResult st.results key ⟨c, []⟩ }
  let cands := staffL.filter (fun s =>
    sAvail s slot && decide (sName s ∉ st1.placed))
  let st2 := assignLoop key c 2 cands st1
  ensureVet staffL slot key st2

/-- STEP 1 (base assignment), folded over the built sessions, starting
from empty results, empty placed set and empty load counter. -/
def step1 (staffL : List StaffRow) (sessions : List (String × CourseRow)) :
    SchedState :=
  sessions.foldl (step1Session staffL) ⟨[], [], []⟩

/-- The engine state after the base-assignment pass. -/
def afterStep1 (course_rows : List CourseRow) (staff_rows : List StaffRow) :
    SchedState :=
  step1 (buildStaff staff_rows) (buildSessions course_rows)

/-- The `open_sessions` list of lines 184-187. -/
def openKeys (rs : Results) : List String :=
  (rs.filter (fun p => p.2.assigned.length < 3)).map (·.1)

/-- The STEP 2 loop body (lines 183-193): the oracle `r` gives the index
drawn by `random.choice` at the `n`-th call; `break` on an empty open
list stops the whole loop. -/
def step2Go (r : Nat → Nat) : List StaffRow → Nat → SchedState → SchedState
  | [], _, st => st
  | s :: rest, n, st =>
      let opens := openKeys st.results
      if opens = [] then st
      else
        let key := opens.getD (r n % opens.length) ""
        step2Go r rest (n + 1) (placeOne st key ⟨sName s, sVet s⟩)

/-- STEP 2 (fallback fill of unassigned staff, lines 181-193).  The
`unassigned` list is computed once, before the loop, exactly as in the
source. -/
def step2 (r : Nat → Nat) (staffL : List StaffRow) (st : SchedState) :
    SchedState :=
  step2Go r (staffL.filter (fun s => decide (sName s ∉ st.placed))) 0 st

/-- The donor search of lines 213-216: the first result entry holding at
least two veteran-flagged assignments. -/
def findDonor (rs : Results) : Option String :=
  (rs.find? (fun p => 2 ≤ countVet p.2.assigned)).map (·.1)

/-- The donor swap of lines 217-220: remove the first veteran entry of
the donor session and append it to the deficient session.  The `none`
branch of the veteran lookup is unreachable in the engine: a donor holds
at least two veteran entries, so the first veteran exists. -/
def donorSwap (st : SchedState) (key donor : String) : SchedState :=
  match (getAssigned st.results donor).find? (·.veteran) with
  | none => st
  | some dvet =>
      { st with
        results := modifyAssigned (modifyAssigned st.results donor
          (fun l => l.erase dvet)) key (fun l => l ++ [dvet]) }

/-- The STEP 3 body for one visited key (lines 199-220). -/
def step3Key (veterans : List StaffRow) (st : SchedState) (key : String) :
    SchedState :=
  if hasVet (getAssigned st.results key) then st
  else
    match (veterans.filter (fun v => decide (sName v ∉ st.placed))).head? with
    | some v => placeOne st key ⟨sName v, true⟩
    | none =>
        match findDonor st.results with
        | none => st
        | some donor => donorSwap st key donor

/-- STEP 3 (veteran rebalancing, lines 195-220), iterating over the
snapshot of result keys; the dict keys never change during the pass. -/
def step3 (veterans : List StaffRow) (st : SchedState) : SchedState :=
  (st.results.map (·.1)).foldl (step3Key veterans) st

/-- `_generate_schedule` of main.py: the composition of the three
passes.  The returned state carries the `results` map and the
`staff_load` counter that the Python function returns (plus the
internal `placed_overall` set). -/
def generate_schedule (r : Nat → Nat) (course_rows : List CourseRow)
    (staff_rows : List StaffRow) : SchedState :=
  step3 ((buildStaff staff_rows).filter (fun s => sVet s))
    (step2 r (buildStaff staff_rows) (afterStep1 course_rows staff_rows))

/-- All assigned names across all result entries, in order. -/
def sessionNames (rs : Results) : List String :=
  (rs.map (fun p => p.2.assigned.map (·.name))).flatten

/-- The key list of the results map. -/
def keysOf (rs : Results) : List String := rs.map (·.1)

/-- The sum of the load counter values. -/
def loadSum (load : List (String × Nat)) : Nat := (load.map (·.2)).sum

/-- The total number of (session, staff) placement entries in the
results map. -/
def entryCount (rs : Results) : Nat := (sessionNames rs).length

/-- The master invariant of the scheduler state: the result map has
no duplicate keys, no staff name occurs twice across all assigned
lists, and every assigned name has been recorded in `placed_overall`. -/
def Inv (st : SchedState) : Prop :=
  (keysOf st.results).Nodup ∧ (sessionNames st.results).Nodup ∧
    ∀ n ∈ sessionNames st.results, n ∈ st.placed

/-- An assigned entry is availability-sound with respect to a staff list
and the course row of its session: some staff record of that name marked
the session slot available. -/
def AvailOK (staffL : List StaffRow) (m : CourseRow) (a : Assigned) : Prop :=
  ∃ s ∈ staffL, sName s = a.name ∧ sAvail s (rowSlot m) = true

/-- Availability soundness of a whole results map. -/
def AvailInv (staffL : List StaffRow) (rs : Results) : Prop :=
  ∀ p ∈ rs, ∀ a ∈ p.2.assigned, AvailOK staffL p.2.meta a

/-! ### Definitions following the words of the specification, used to
compare claimed behaviour with the behaviour of the code. -/

/-- Modelled from the spec: the integer parse behind `requiredStaffCount`
("positive integer; parse failures default to 1, and the value is floored
at 1").  No such parse exists anywhere in `_generate_schedule`: the
"Min # of SPTs Required" column is validated by the upload endpoint and
then never read. -/
def parseNat? (s : String) : Option Nat :=
  if s.data ≠ [] ∧ s.data.all Char.isDigit
  then some (s.data.foldl (fun n c => n * 10 + (c.toNat - 48)) 0)
  else none

/-- Modelled from the spec: `requiredStaffCount` of a course row. -/
def requiredStaffCount (c : CourseRow) : Nat :=
  match parseNat? (strTrim c.minRequired) with
  | some n => max 1 n
  | none => 1

/-- The number of staff whose availability flag for a slot is true. -/
def availCount (staffL : List StaffRow) (slot : String) : Nat :=
  (staffL.filter (fun s => sAvail s slot)).length

/-- Modelled from the spec: the session priority order claimed in §4.4 -
descending required-staff-count, then ascending count of available
staff - as an adjacent-pairs check on a visit sequence. -/
def specPriorityOrderedB (staffL : List StaffRow) :
    List (String × CourseRow) → Bool
  | [] => true
  | [_] => true
  | a :: b :: rest =>
      (decide (requiredStaffCount b.2 < requiredStaffCount a.2) ||
        (requiredStaffCount a.2 == requiredStaffCount b.2 &&
          decide (availCount staffL a.1 ≤ availCount staffL b.1))) &&
      specPriorityOrderedB staffL (b :: rest)

/-- Modelled from the spec: the combined selection score claimed in
§4.4, base score plus a load-balance bonus of max(0, 4 - load). -/
def specLoadBonusScore (staff : StaffRow) (c : CourseRow)
    (names : Finset String) (load : Nat) : Nat :=
  score_candidate staff c names + max 0 (4 - load)

/-- Modelled from the spec: the exact sum that claim C6 states for
`_score_candidate`, with no guard on an empty course name. -/
def spec_score (staff : StaffRow) (c : CourseRow) (names : Finset String) : Nat :=
  (if strToLower (strTrim staff.firstChoice) = strToLower (strTrim c.course)
    then 6 else 0) +
  (if strToLower (strTrim staff.secondChoice) = strToLower (strTrim c.course)
    then 3 else 0) +
  4 * (({strTrim staff.pp1, strTrim staff.pp2, strTrim staff.pp3} : Finset String)
    ∩ names).card +
  (if truthy staff.vetCol then 2 else 0)

/-- The sum of claim C6 amended with the guard the code actually has:
the course-choice bonuses apply only when the trimmed, lowercased course
name is non-empty. -/
def spec_score_guarded (staff : StaffRow) (c : CourseRow)
    (names : Finset String) : Nat :=
  (if strToLower (strTrim c.course) ≠ "" ∧
      strToLower (strTrim staff.firstChoice) = strToLower (strTrim c.course)
    then 6 else 0) +
  (if strToLower (strTrim c.course) ≠ "" ∧
      strToLower (strTrim staff.secondChoice) = strToLower (strTrim c.course)
    then 3 else 0) +
  4 * (({strTrim staff.pp1, strTrim staff.pp2, strTrim staff.pp3} : Finset String)
    ∩ names).card +
  (if truthy staff.vetCol then 2 else 0)

/-- Concrete course row: slot 9:10AM-11:05AM, required column "1". -/
def cRowA : CourseRow := ⟨"C", "1", "9:10AM", "11:05AM", "1"⟩

/-- Concrete course row: same slot as cRowA, required column "2". -/
def cRowB : CourseRow := ⟨"D", "2", "9:10AM", "11:05AM", "2"⟩

/-- Concrete course row in the second canonical slot. -/
def cRowT2 : CourseRow := ⟨"C", "1", "11:20AM", "1:15PM", "1"⟩

/-- Concrete course row with an empty course name. -/
def cRowE : CourseRow := ⟨"", "1", "9:10AM", "11:05AM", ""⟩

/-- Staff available in the first slot only. -/
def staffA : StaffRow := ⟨"A", "", "", "", "", "", "y", "", "", ""⟩

/-- Second staff member available in the first slot only. -/
def staffB : StaffRow := ⟨"B", "", "", "", "", "", "y", "", "", ""⟩

/-- Staff member available in the first slot only, named Bob. -/
def staffBob : StaffRow := ⟨"Bob", "", "", "", "", "", "y", "", "", ""⟩

/-- Staff member with no availability at all. -/
def staffZ : StaffRow := ⟨"Z", "", "", "", "", "", "", "", "", ""⟩

/-- A random oracle always drawing index 0. -/
def oracle0 : Nat → Nat := fun _ => 0

/-- A random oracle always drawing index 1. -/
def oracle1 : Nat → Nat := fun _ => 1

/-- A concrete rebalance state: session k1 has no veteran, session k2
holds two veterans, every named staff member is already placed. -/
def stW : SchedState :=
  ⟨[("k1", ⟨cRowA, [⟨"A", false⟩]⟩),
    ("k2", ⟨cRowA, [⟨"B", true⟩, ⟨"C", true⟩]⟩)], ["A", "B", "C"], []⟩

end OpSTEM


namespace OpSTEM

open List

/-! ### Basic lemmas about the state operations -/

@[simp] theorem sessionNames_nil : sessionNames [] = [] := rfl

@[simp] theorem sessionNames_cons (p : String × Session) (rs : Results) :
    sessionNames (p :: rs) = p.2.assigned.map (·.name) ++ sessionNames rs := by
  simp [sessionNames]

@[simp] theorem keysOf_nil : keysOf [] = [] := rfl

@[simp] theorem keysOf_cons (p : String × Session) (rs : Results) :
    keysOf (p :: rs) = p.1 :: keysOf rs := rfl

@[simp] theorem findSession_nil (k : String) : findSession [] k = none := rfl

theorem findSession_cons (p : String × Session) (rs : Results) (k : String) :
    findSession (p :: rs) k = if p.1 = k then some p.2 else findSession rs k := by
  by_cases h : p.1 = k <;> simp [findSession, List.find?_cons, h]

theorem pickBest_none_iff (f : StaffRow → Nat) (l : List StaffRow) :
    pickBest f l = none ↔ l = [] := by
  cases l with
  | nil => simp [pickBest]
  | cons s rest =>
      simp only [pickBest]
      cases pickBest f rest with
      | none => simp [pickBetter]
      | some c => by_cases h : f c > f s <;> simp [pickBetter, h]

theorem pickBest_mem (f : StaffRow → Nat) (l : List StaffRow) (b : StaffRow)
    (h : pickBest f l = some b) : b ∈ l := by
  induction l generalizing b with
  | nil => simp [pickBest] at h
  | cons s rest ih =>
      simp only [pickBest] at h
      cases hr : pickBest f rest with
      | none =>
          rw [hr] at h
          simp only [pickBetter, Option.some.injEq] at h
          subst h
          exact List.mem_cons_self _ _
      | some c =>
          rw [hr] at h
          simp only [pickBetter] at h
          by_cases hgt : f c > f s
          · rw [if_pos hgt] at h
            cases h
            exact List.mem_cons_of_mem _ (ih _ hr)
          · rw [if_neg hgt] at h
            cases h
            exact List.mem_cons_self _ _

theorem pickBest_spec (f : StaffRow → Nat) (l : List StaffRow) (b : StaffRow)
    (h : pickBest f l = some b) :
    (∃ l1 l2, l = l1 ++ b :: l2 ∧ ∀ x ∈ l1, f x < f b) ∧ ∀ x ∈ l, f x ≤ f b := by
  induction l generalizing b with
  | nil => simp [pickBest] at h
  | cons s rest ih =>
      simp only [pickBest] at h
      cases hr : pickBest f rest with
      | none =>
          rw [hr] at h
          simp only [pickBetter, Option.some.injEq] at h
          subst h
          rcases (pickBest_none_iff f rest).mp hr with rfl
          exact ⟨⟨[], [], rfl, by simp⟩, by simp⟩
      | some c =>
          rw [hr] at h
          simp only [pickBetter] at h
          rcases ih c hr with ⟨⟨l1, l2, hsplit, hlt⟩, hle⟩
          by_cases hgt : f c > f s
          · rw [if_pos hgt] at h
            cases h
            refine ⟨⟨s :: l1, l2, by simp [hsplit], ?_⟩, ?_⟩
            · intro x hx
              rcases List.mem_cons.mp hx with rfl | hx
              · exact hgt
              · exact hlt x hx
            · intro x hx
              rcases List.mem_cons.mp hx with rfl | hx
              · exact Nat.le_of_lt hgt
              · exact hle x hx
          · rw [if_neg hgt] at h
            cases h
            refine ⟨⟨[], rest, rfl, by simp⟩, ?_⟩
            intro x hx
            rcases List.mem_cons.mp hx with rfl | hx
            · exact Nat.le_refl _
            · exact Nat.le_trans (hle x hx) (Nat.le_of_not_lt hgt)

end OpSTEM

namespace OpSTEM

open List

theorem keysOf_modifyAssigned (rs : Results) (k : String)
    (f : List Assigned → List Assigned) :
    keysOf (modifyAssigned rs k f) = keysOf rs := by
  induction rs with
  | nil => rfl
  | cons p rest ih =>
      by_cases h : p.1 = k <;> simp [modifyAssigned, h, ih]

theorem modifyAssigned_of_not_mem (rs : Results) (k : String)
    (f : List Assigned → List Assigned) (h : k ∉ keysOf rs) :
    modifyAssigned rs k f = rs := by
  induction rs with
  | nil => rfl
  | cons p rest ih =>
      simp only [keysOf_cons, List.mem_cons] at h
      push_neg at h
      have hp : ¬ p.1 = k := fun hh => h.1 hh.symm
      simp [modifyAssigned, hp, ih h.2]

theorem findSession_modify_self (rs : Results) (k : String)
    (f : List Assigned → List Assigned) :
    findSession (modifyAssigned rs k f) k =
      (findSession rs k).map (fun s => ⟨s.meta, f s.assigned⟩) := by
  induction rs with
  | nil => rfl
  | cons p rest ih =>
      by_cases h : p.1 = k
      · simp [modifyAssigned, h, findSession_cons]
      · simp [modifyAssigned, h, findSession_cons, ih]

theorem findSession_modify_ne (rs : Results) (k k' : String)
    (f : List Assigned → List Assigned) (h : k' ≠ k) :
    findSession (modifyAssigned rs k f) k' = findSession rs k' := by
  induction rs with
  | nil => rfl
  | cons p rest ih =>
      by_cases hp : p.1 = k
      · have hk' : ¬ k = k' := Ne.symm h
        simp [modifyAssigned, hp, findSession_cons, hk']
      · by_cases hp' : p.1 = k'
        · rw [modifyAssigned, if_neg hp, findSession_cons, findSession_cons,
            if_pos hp', if_pos hp']
        · rw [modifyAssigned, if_neg hp, findSession_cons, findSession_cons,
            if_neg hp', if_neg hp']
          exact ih

theorem getAssigned_eq_of_findSession (rs : Results) (k : String) (sess : Session)
    (h : findSession rs k = some sess) : getAssigned rs k = sess.assigned := by
  simp [getAssigned, h]

theorem sessionNames_modify_append (rs : Results) (k : String) (a : Assigned)
    (h : k ∈ keysOf rs) :
    sessionNames (modifyAssigned rs k (fun l => l ++ [a])) ~
      a.name :: sessionNames rs := by
  induction rs with
  | nil => simp at h
  | cons p rest ih =>
      by_cases hp : p.1 = k
      · simp only [modifyAssigned, if_pos hp, sessionNames_cons, List.map_append,
          List.map_cons, List.map_nil, List.append_assoc, List.singleton_append]
        exact List.perm_middle
      · simp only [keysOf_cons, List.mem_cons] at h
        rcases h with h | h
        · exact absurd h.symm hp
        · simp only [modifyAssigned, if_neg hp, sessionNames_cons]
          exact (List.Perm.append_left _ (ih h)).trans List.perm_middle

theorem sessionNames_modify_erase (rs : Results) (k : String) (sess : Session)
    (d : Assigned) (hs : findSession rs k = some sess) (hd : d ∈ sess.assigned) :
    sessionNames rs ~
      d.name :: sessionNames (modifyAssigned rs k (fun l => l.erase d)) := by
  induction rs with
  | nil => simp [findSession_nil] at hs
  | cons p rest ih =>
      rw [findSession_cons] at hs
      by_cases hp : p.1 = k
      · rw [if_pos hp] at hs
        cases hs
        simp only [modifyAssigned, if_pos hp, sessionNames_cons]
        have h1 : p.2.assigned.map (·.name) ~
            d.name :: (p.2.assigned.erase d).map (·.name) := by
          have h2 := (List.perm_cons_erase hd).map (fun x => x.name)
          simpa using h2
        exact h1.append_right _
      · rw [if_neg hp] at hs
        simp only [modifyAssigned, if_neg hp, sessionNames_cons]
        exact ((ih hs).append_left _).trans List.perm_middle

theorem length_le_of_modify (rs : Results) (k : String)
    (f : List Assigned → List Assigned) (m : Nat)
    (hall : ∀ q ∈ rs, q.2.assigned.length ≤ m)
    (hf : (f (getAssigned rs k)).length ≤ m) :
    ∀ q ∈ modifyAssigned rs k f, q.2.assigned.length ≤ m := by
  induction rs with
  | nil => simp [modifyAssigned]
  | cons p rest ih =>
      by_cases hp : p.1 = k
      · rw [getAssigned_eq_of_findSession _ _ p.2 (by rw [findSession_cons, if_pos hp])] at hf
        simp only [modifyAssigned, if_pos hp]
        intro q hq
        rcases List.mem_cons.mp hq with rfl | hq
        · exact hf
        · exact hall q (List.mem_cons_of_mem _ hq)
      · have hget : getAssigned (p :: rest) k = getAssigned rest k := by
          simp [getAssigned, findSession_cons, hp]
        rw [hget] at hf
        simp only [modifyAssigned, if_neg hp]
        intro q hq
        rcases List.mem_cons.mp hq with rfl | hq
        · exact hall q (List.mem_cons_self _ _)
        · exact ih (fun q hq => hall q (List.mem_cons_of_mem _ hq)) hf q hq

theorem length_le_of_modify_cond (rs : Results) (k : String)
    (f : List Assigned → List Assigned) (m : Nat) (S : List String)
    (hall : ∀ q ∈ rs, q.1 ∈ S → q.2.assigned.length ≤ m)
    (hf : k ∈ S → (f (getAssigned rs k)).length ≤ m) :
    ∀ q ∈ modifyAssigned rs k f, q.1 ∈ S → q.2.assigned.length ≤ m := by
  induction rs with
  | nil => simp [modifyAssigned]
  | cons p rest ih =>
      by_cases hp : p.1 = k
      · simp only [modifyAssigned, if_pos hp]
        intro q hq hqS
        rcases List.mem_cons.mp hq with rfl | hq
        · refine le_trans (le_of_eq rfl) ?_
          have : k ∈ S := by rw [← hp]; exact hqS
          have := hf this
          rwa [getAssigned_eq_of_findSession _ _ p.2
            (by rw [findSession_cons, if_pos hp])] at this
        · exact hall q (List.mem_cons_of_mem _ hq) hqS
      · have hget : getAssigned (p :: rest) k = getAssigned rest k := by
          simp [getAssigned, findSession_cons, hp]
        simp only [modifyAssigned, if_neg hp]
        intro q hq hqS
        rcases List.mem_cons.mp hq with rfl | hq
        · exact hall q (List.mem_cons_self _ _) hqS
        · exact ih (fun q hq => hall q (List.mem_cons_of_mem _ hq))
            (fun hk => by rw [← hget]; exact hf hk) q hq hqS

theorem getAssigned_modify_le (rs : Results) (k k' : String)
    (f : List Assigned → List Assigned)
    (hf : ∀ l, (f l).length ≤ l.length) :
    (getAssigned (modifyAssigned rs k' f) k).length ≤ (getAssigned rs k).length := by
  by_cases h : k = k'
  · subst h
    rw [getAssigned, findSession_modify_self]
    cases hs : findSession rs k with
    | none => simp [getAssigned, hs]
    | some sess => simpa [getAssigned, hs] using hf sess.assigned
  · rw [getAssigned, findSession_modify_ne _ _ _ _ h, ← getAssigned]

theorem keysOf_upsert (rs : Results) (k : String) (v : Session) :
    keysOf (upsertResult rs k v) =
      if k ∈ keysOf rs then keysOf rs else keysOf rs ++ [k] := by
  induction rs with
  | nil => simp [upsertResult]
  | cons p rest ih =>
      by_cases hp : p.1 = k
      · simp [upsertResult, hp]
      · have : ¬ k = p.1 := fun hh => hp hh.symm
        by_cases hk : k ∈ keysOf rest <;>
          simp [upsertResult, hp, this, hk, ih]

theorem findSession_upsert_self (rs : Results) (k : String) (v : Session) :
    findSession (upsertResult rs k v) k = some v := by
  induction rs with
  | nil => simp [upsertResult, findSession_cons]
  | cons p rest ih =>
      by_cases hp : p.1 = k <;>
        simp [upsertResult, hp, findSession_cons, ih]

theorem sessionNames_upsert_sublist (rs : Results) (k : String) (c : CourseRow) :
    sessionNames (upsertResult rs k ⟨c, []⟩) <+ sessionNames rs := by
  induction rs with
  | nil => simp [upsertResult, sessionNames]
  | cons p rest ih =>
      by_cases hp : p.1 = k
      · simp only [upsertResult, if_pos hp, sessionNames_cons, List.map_nil,
          List.nil_append]
        exact List.sublist_append_right _ _
      · simp only [upsertResult, if_neg hp, sessionNames_cons]
        exact ih.append_left _

theorem mem_upsert (rs : Results) (k : String) (v : Session) (q : String × Session)
    (hq : q ∈ upsertResult rs k v) : q ∈ rs ∨ q = (k, v) := by
  induction rs with
  | nil => simp [upsertResult] at hq; simp [hq]
  | cons p rest ih =>
      by_cases hp : p.1 = k
      · rw [upsertResult, if_pos hp] at hq
        rcases List.mem_cons.mp hq with rfl | hq
        · right; rfl
        · left; exact List.mem_cons_of_mem _ hq
      · rw [upsertResult, if_neg hp] at hq
        rcases List.mem_cons.mp hq with rfl | hq
        · left; exact List.mem_cons_self _ _
        · rcases ih hq with h | h
          · left; exact List.mem_cons_of_mem _ h
          · right; exact h

theorem loadSum_incLoad (load : List (String × Nat)) (n : String) :
    loadSum (incLoad load n) = loadSum load + 1 := by
  induction load with
  | nil => simp [incLoad, loadSum]
  | cons p rest ih =>
      by_cases hp : p.1 = n
      · simp [incLoad, hp, loadSum]
        omega
      · simp [incLoad, hp, loadSum] at *
        omega

end OpSTEM

namespace OpSTEM

open List

@[simp] theorem results_placeOne (st : SchedState) (k : String) (a : Assigned) :
    (placeOne st k a).results = modifyAssigned st.results k (fun l => l ++ [a]) := rfl

@[simp] theorem placed_placeOne (st : SchedState) (k : String) (a : Assigned) :
    (placeOne st k a).placed = a.name :: st.placed := rfl

@[simp] theorem load_placeOne (st : SchedState) (k : String) (a : Assigned) :
    (placeOne st k a).load = incLoad st.load a.name := rfl

theorem mem_upsertStaff (acc : List StaffRow) (s x : StaffRow)
    (hx : x ∈ upsertStaff acc s) : x ∈ acc ∨ x = s := by
  induction acc with
  | nil => simp [upsertStaff] at hx; simp [hx]
  | cons t rest ih =>
      rw [upsertStaff] at hx
      split at hx
      · rcases List.mem_cons.mp hx with rfl | hx
        · right; rfl
        · left; exact List.mem_cons_of_mem _ hx
      · rcases List.mem_cons.mp hx with rfl | hx
        · left; exact List.mem_cons_self _ _
        · rcases ih hx with h | h
          · left; exact List.mem_cons_of_mem _ h
          · right; exact h

theorem sName_mem_upsertStaff (acc : List StaffRow) (s : StaffRow) (x : String)
    (hx : x ∈ (upsertStaff acc s).map sName) :
    x ∈ acc.map sName ∨ x = sName s := by
  rcases List.mem_map.mp hx with ⟨y, hy, rfl⟩
  rcases mem_upsertStaff acc s y hy with h | rfl
  · left; exact List.mem_map_of_mem _ h
  · right; rfl

theorem nodup_upsertStaff (acc : List StaffRow) (s : StaffRow)
    (h : (acc.map sName).Nodup) : ((upsertStaff acc s).map sName).Nodup := by
  induction acc with
  | nil => simp [upsertStaff]
  | cons t rest ih =>
      rw [upsertStaff]
      rw [List.map_cons, List.nodup_cons] at h
      split
      · next heq =>
          rw [List.map_cons, List.nodup_cons]
          exact ⟨by rw [← heq]; exact h.1, h.2⟩
      · next hne =>
          rw [List.map_cons, List.nodup_cons]
          refine ⟨?_, ih h.2⟩
          intro hmem
          rcases sName_mem_upsertStaff rest s _ hmem with hh | hh
          · exact h.1 hh
          · exact hne hh

theorem buildStaff_names_nodup (rows : List StaffRow) :
    ((buildStaff rows).map sName).Nodup := by
  rw [buildStaff]
  suffices h : ∀ (acc : List StaffRow), (acc.map sName).Nodup →
      ((rows.foldl (fun acc s => if sName s = "" then acc else upsertStaff acc s) acc).map sName).Nodup by
    exact h [] (by simp)
  induction rows with
  | nil => intro acc hacc; simpa using hacc
  | cons s rest ih =>
      intro acc hacc
      rw [List.foldl_cons]
      by_cases hs : sName s = ""
      · rw [if_pos hs]; exact ih acc hacc
      · rw [if_neg hs]; exact ih _ (nodup_upsertStaff acc s hacc)

theorem mem_buildStaff_aux (rows : List StaffRow) : ∀ (acc : List StaffRow) (x : StaffRow),
    x ∈ rows.foldl (fun acc s => if sName s = "" then acc else upsertStaff acc s) acc →
    x ∈ acc ∨ x ∈ rows := by
  induction rows with
  | nil =>
      intro acc x h
      rw [List.foldl_nil] at h
      exact Or.inl h
  | cons s rest ih =>
      intro acc x h
      rw [List.foldl_cons] at h
      by_cases hs : sName s = ""
      · rw [if_pos hs] at h
        rcases ih acc x h with hc | hc
        · exact Or.inl hc
        · exact Or.inr (List.mem_cons_of_mem _ hc)
      · rw [if_neg hs] at h
        rcases ih _ x h with hc | hc
        · rcases mem_upsertStaff acc s x hc with hc' | rfl
          · exact Or.inl hc'
          · exact Or.inr (List.mem_cons_self _ _)
        · exact Or.inr (List.mem_cons_of_mem _ hc)

theorem mem_buildStaff (rows : List StaffRow) (x : StaffRow)
    (hx : x ∈ buildStaff rows) : x ∈ rows := by
  rw [buildStaff] at hx
  rcases mem_buildStaff_aux rows [] x hx with h | h
  · simp at h
  · exact h

theorem mem_buildSessions (cr : List CourseRow) (p : String × CourseRow)
    (hp : p ∈ buildSessions cr) :
    p.1 = rowSlot p.2 ∧ p.1 ∈ TIME_SLOTS ∧ p.2 ∈ cr := by
  rw [buildSessions] at hp
  rcases List.mem_filterMap.mp hp with ⟨c, hc, hsome⟩
  by_cases h : rowSlot c ∈ TIME_SLOTS
  · rw [if_pos h] at hsome
    cases hsome
    exact ⟨rfl, h, hc⟩
  · rw [if_neg h] at hsome
    cases hsome

theorem buildSessions_map_snd (cr : List CourseRow) :
    (buildSessions cr).map Prod.snd =
      cr.filter (fun c => decide (rowSlot c ∈ TIME_SLOTS)) := by
  induction cr with
  | nil => rfl
  | cons c rest ih =>
      by_cases h : rowSlot c ∈ TIME_SLOTS
      · simpa [buildSessions, List.filterMap_cons, h, List.filter_cons] using
          congrArg (List.cons c) ih
      · simpa [buildSessions, List.filterMap_cons, h, List.filter_cons] using ih

theorem findSession_mem (rs : Results) (k : String) (sess : Session)
    (h : findSession rs k = some sess) : (k, sess) ∈ rs := by
  rw [findSession] at h
  rcases Option.map_eq_some'.mp h with ⟨q, hq, h2⟩
  have hk : q.1 = k := by
    have := List.find?_some hq
    simpa using this
  have hmem := List.mem_of_find?_eq_some hq
  have : q = (k, sess) := by
    cases q
    simp at hk h2
    simp [hk, h2]
  rwa [this] at hmem

theorem findSession_of_mem_nodup (rs : Results) (q : String × Session)
    (hq : q ∈ rs) (hnd : (keysOf rs).Nodup) : findSession rs q.1 = some q.2 := by
  induction rs with
  | nil => simp at hq
  | cons p rest ih =>
      rw [keysOf_cons, List.nodup_cons] at hnd
      rcases List.mem_cons.mp hq with rfl | hq
      · simp [findSession_cons]
      · rw [findSession_cons]
        have hne : ¬ p.1 = q.1 := by
          intro hh
          exact hnd.1 (hh ▸ List.mem_map_of_mem _ hq)
        rw [if_neg hne]
        exact ih hq hnd.2

theorem findDonor_some (rs : Results) (d : String) (h : findDonor rs = some d)
    (hnd : (keysOf rs).Nodup) :
    ∃ sess, findSession rs d = some sess ∧ 2 ≤ countVet sess.assigned := by
  rw [findDonor] at h
  rcases Option.map_eq_some'.mp h with ⟨q, hq, h2⟩
  have hpred : 2 ≤ countVet q.2.assigned := by
    have := List.find?_some hq
    simpa using this
  have hmem := List.mem_of_find?_eq_some hq
  refine ⟨q.2, ?_, hpred⟩
  rw [← h2]
  exact findSession_of_mem_nodup rs q hmem hnd

theorem Inv_placeOne (st : SchedState) (k : String) (a : Assigned)
    (hInv : Inv st) (ha : a.name ∉ st.placed) : Inv (placeOne st k a) := by
  obtain ⟨hknd, hnd, hsub⟩ := hInv
  by_cases hk : k ∈ keysOf st.results
  · have hperm := sessionNames_modify_append st.results k a hk
    refine ⟨?_, ?_, ?_⟩
    · simpa [keysOf_modifyAssigned] using hknd
    · rw [results_placeOne]
      refine hperm.nodup_iff.mpr (List.nodup_cons.mpr ⟨?_, hnd⟩)
      intro hmem
      exact ha (hsub _ hmem)
    · intro n hn
      rw [results_placeOne] at hn
      have := hperm.subset hn
      rcases List.mem_cons.mp this with rfl | h
      · exact List.mem_cons_self _ _
      · exact List.mem_cons_of_mem _ (hsub _ h)
  · have heq : modifyAssigned st.results k (fun l => l ++ [a]) = st.results :=
      modifyAssigned_of_not_mem _ _ _ hk
    refine ⟨?_, ?_, ?_⟩
    · simpa [keysOf_modifyAssigned] using hknd
    · rw [results_placeOne, heq]; exact hnd
    · intro n hn
      rw [results_placeOne, heq] at hn
      exact List.mem_cons_of_mem _ (hsub _ hn)

end OpSTEM


namespace OpSTEM

open List

theorem Inv_assignLoop (key : String) (c : CourseRow) :
    ∀ (fuel : Nat) (cands : List StaffRow) (st : SchedState),
    Inv st → (∀ s ∈ cands, sName s ∉ st.placed) →
    Inv (assignLoop key c fuel cands st) := by
  intro fuel
  induction fuel with
  | zero => intro cands st hInv _; exact hInv
  | succ n ih =>
      intro cands st hInv hc
      rw [assignLoop]
      split
      · split
        · exact hInv
        · next chosen heq =>
            apply ih
            · exact Inv_placeOne st key _ hInv (hc chosen (pickBest_mem _ _ _ heq))
            · intro s hs
              rw [List.mem_filter] at hs
              rw [placed_placeOne, List.mem_cons]
              push_neg
              exact ⟨(by simpa using hs.2 : sName s ≠ sName chosen), hc s hs.1⟩
      · exact hInv

theorem Inv_ensureVet (staffL : List StaffRow) (slot key : String)
    (st : SchedState) (hInv : Inv st) : Inv (ensureVet staffL slot key st) := by
  rw [ensureVet]
  split
  · exact hInv
  · cases hl : staffL.filter (fun s =>
        sVet s && sAvail s slot && decide (sName s ∉ st.placed)) with
    | nil => exact hInv
    | cons v rest =>
        show Inv (placeOne st key ⟨sName v, true⟩)
        have hv : v ∈ staffL.filter (fun s =>
            sVet s && sAvail s slot && decide (sName s ∉ st.placed)) := by
          rw [hl]; exact List.mem_cons_self _ _
        rw [List.mem_filter] at hv
        apply Inv_placeOne st key _ hInv
        have h2 := hv.2
        simp only [Bool.and_eq_true, decide_eq_true_eq] at h2
        exact h2.2

theorem Inv_step1Session (staffL : List StaffRow) (st : SchedState)
    (p : String × CourseRow) (hInv : Inv st) : Inv (step1Session staffL st p) := by
  rw [step1Session]
  apply Inv_ensureVet
  apply Inv_assignLoop
  · obtain ⟨hknd, hnd, hsub⟩ := hInv
    have hsl := sessionNames_upsert_sublist st.results (sessionKey p.1 p.2) p.2
    refine ⟨?_, hnd.sublist hsl, fun n hn => hsub n (hsl.mem hn)⟩
    rw [keysOf_upsert]
    split
    · exact hknd
    · next hk =>
        rw [List.nodup_append]
        refine ⟨hknd, List.nodup_singleton _, ?_⟩
        intro a ha hb
        rw [List.mem_singleton] at hb
        subst hb
        exact hk ha
  · intro s hs
    rw [List.mem_filter] at hs
    have h2 := hs.2
    simp only [Bool.and_eq_true, decide_eq_true_eq] at h2
    exact h2.2

theorem Inv_step1 (staffL : List StaffRow) (sessions : List (String × CourseRow)) :
    Inv (step1 staffL sessions) := by
  rw [step1]
  have hbase : Inv ⟨[], [], []⟩ := by
    refine ⟨List.nodup_nil, List.nodup_nil, ?_⟩
    intro n hn
    simp [sessionNames] at hn
  suffices h : ∀ st, Inv st → Inv (sessions.foldl (step1Session staffL) st) from
    h _ hbase
  induction sessions with
  | nil => intro st h; exact h
  | cons p rest ih =>
      intro st h
      rw [List.foldl_cons]
      exact ih _ (Inv_step1Session staffL st p h)

theorem Inv_step2Go (r : Nat → Nat) :
    ∀ (us : List StaffRow) (n : Nat) (st : SchedState),
    Inv st → ((us.map sName).Nodup) → (∀ s ∈ us, sName s ∉ st.placed) →
    Inv (step2Go r us n st) := by
  intro us
  induction us with
  | nil => intro n st h _ _; exact h
  | cons s rest ih =>
      intro n st hInv hnd hus
      rw [step2Go]
      split
      · exact hInv
      · rw [List.map_cons, List.nodup_cons] at hnd
        apply ih
        · exact Inv_placeOne st _ _ hInv (hus s (List.mem_cons_self _ _))
        · exact hnd.2
        · intro x hx
          rw [placed_placeOne, List.mem_cons]
          push_neg
          constructor
          · intro hh
            have hh' : sName x = sName s := hh
            exact hnd.1 (hh' ▸ List.mem_map_of_mem sName hx)
          · exact hus x (List.mem_cons_of_mem _ hx)

theorem Inv_step2 (r : Nat → Nat) (staffL : List StaffRow) (st : SchedState)
    (hInv : Inv st) (hstaff : (staffL.map sName).Nodup) :
    Inv (step2 r staffL st) := by
  rw [step2]
  apply Inv_step2Go r _ 0 st hInv
  · exact hstaff.sublist ((List.filter_sublist _).map sName)
  · intro s hs
    rw [List.mem_filter] at hs
    simpa using hs.2

theorem mem_of_head?_eq_some {α : Type} {l : List α} {a : α}
    (h : l.head? = some a) : a ∈ l := by
  cases l with
  | nil => simp at h
  | cons x xs =>
      simp only [List.head?_cons, Option.some.injEq] at h
      subst h
      exact List.mem_cons_self _ _

theorem donorSwap_cases (st : SchedState) (key donor : String) :
    donorSwap st key donor = st ∨
    ∃ dvet, (getAssigned st.results donor).find? (·.veteran) = some dvet ∧
      donorSwap st key donor =
        { st with results := modifyAssigned (modifyAssigned st.results donor
            (fun l => l.erase dvet)) key (fun l => l ++ [dvet]) } := by
  rw [donorSwap]
  cases hdv : (getAssigned st.results donor).find? (·.veteran) with
  | none => exact Or.inl rfl
  | some dvet => exact Or.inr ⟨dvet, rfl, rfl⟩

theorem step3Key_cases (vets : List StaffRow) (st : SchedState) (key : String) :
    step3Key vets st key = st ∨
    (∃ v, (vets.filter (fun v => decide (sName v ∉ st.placed))).head? = some v ∧
      step3Key vets st key = placeOne st key ⟨sName v, true⟩) ∨
    (∃ donor dvet, findDonor st.results = some donor ∧
      (getAssigned st.results donor).find? (·.veteran) = some dvet ∧
      step3Key vets st key =
        { st with results := modifyAssigned (modifyAssigned st.results donor
            (fun l => l.erase dvet)) key (fun l => l ++ [dvet]) }) := by
  by_cases h1 : hasVet (getAssigned st.results key) = true
  · exact Or.inl (by rw [step3Key, if_pos h1])
  · have hstep : step3Key vets st key =
        match (vets.filter (fun v => decide (sName v ∉ st.placed))).head? with
        | some v => placeOne st key ⟨sName v, true⟩
        | none =>
            match findDonor st.results with
            | none => st
            | some donor => donorSwap st key donor := by
      rw [step3Key, if_neg h1]
    cases hl : (vets.filter (fun v => decide (sName v ∉ st.placed))).head? with
    | some v =>
        rw [hl] at hstep
        exact Or.inr (Or.inl ⟨v, rfl, hstep⟩)
    | none =>
        rw [hl] at hstep
        cases hd : findDonor st.results with
        | none =>
            rw [hd] at hstep
            exact Or.inl hstep
        | some donor =>
            rw [hd] at hstep
            have hstep2 : step3Key vets st key = donorSwap st key donor := hstep
            rcases donorSwap_cases st key donor with h | ⟨dvet, hdv, h⟩
            · exact Or.inl (hstep2.trans h)
            · exact Or.inr (Or.inr ⟨donor, dvet, rfl, hdv, hstep2.trans h⟩)

theorem Inv_step3Key (vets : List StaffRow) (st : SchedState) (key : String)
    (hInv : Inv st) : Inv (step3Key vets st key) := by
  rcases step3Key_cases vets st key with heq | ⟨v, hv, heq⟩ |
    ⟨donor, dvet, hd, hdv, heq⟩ <;> rw [heq]
  · exact hInv
  · have hvf := mem_of_head?_eq_some hv
    rw [List.mem_filter] at hvf
    exact Inv_placeOne st key _ hInv (by simpa using hvf.2)
  · obtain ⟨hknd, hnd, hsub⟩ := hInv
    obtain ⟨dsess, hds, hcnt⟩ := findDonor_some st.results donor hd hknd
    have hmemv : dvet ∈ dsess.assigned := by
      rw [getAssigned_eq_of_findSession _ _ _ hds] at hdv
      exact List.mem_of_find?_eq_some hdv
    have hA := sessionNames_modify_erase st.results donor dsess dvet hds hmemv
    by_cases hk : key ∈ keysOf (modifyAssigned st.results donor (fun l => l.erase dvet))
    · have hB := sessionNames_modify_append
        (modifyAssigned st.results donor (fun l => l.erase dvet)) key dvet hk
      have hperm : sessionNames (modifyAssigned (modifyAssigned st.results donor
          (fun l => l.erase dvet)) key (fun l => l ++ [dvet])) ~
          sessionNames st.results := hB.trans hA.symm
      refine ⟨?_, hperm.nodup_iff.mpr hnd, ?_⟩
      · simpa [keysOf_modifyAssigned] using hknd
      · intro x hx
        exact hsub x (hperm.subset hx)
    · rw [modifyAssigned_of_not_mem _ key _ hk]
      have hnd1 : (dvet.name ::
          sessionNames (modifyAssigned st.results donor (fun l => l.erase dvet))).Nodup :=
        hA.nodup_iff.mp hnd
      refine ⟨?_, (List.nodup_cons.mp hnd1).2, ?_⟩
      · simpa [keysOf_modifyAssigned] using hknd
      · intro x hx
        exact hsub x (hA.mem_iff.mpr (List.mem_cons_of_mem _ hx))

theorem Inv_step3 (vets : List StaffRow) (st : SchedState) (hInv : Inv st) :
    Inv (step3 vets st) := by
  rw [step3]
  generalize st.results.map (fun x => x.1) = ks
  induction ks generalizing st with
  | nil => exact hInv
  | cons k rest ih =>
      rw [List.foldl_cons]
      exact ih _ (Inv_step3Key vets st k hInv)

/-- The master invariant holds of every run of the engine. -/
theorem Inv_generate_schedule (r : Nat → Nat) (cr : List CourseRow)
    (sr : List StaffRow) : Inv (generate_schedule r cr sr) := by
  rw [generate_schedule]
  apply Inv_step3
  apply Inv_step2
  · exact Inv_step1 _ _
  · exact buildStaff_names_nodup sr

end OpSTEM


namespace OpSTEM

open List

theorem getAssigned_mem_or_nil (rs : Results) (k : String) :
    getAssigned rs k = [] ∨
      ∃ sess, (k, sess) ∈ rs ∧ getAssigned rs k = sess.assigned := by
  cases hs : findSession rs k with
  | none => left; simp [getAssigned, hs]
  | some sess =>
      right
      exact ⟨sess, findSession_mem _ _ _ hs, by simp [getAssigned, hs]⟩

theorem getAssigned_length_le (rs : Results) (k : String) (m : Nat)
    (h : ∀ p ∈ rs, p.2.assigned.length ≤ m) : (getAssigned rs k).length ≤ m := by
  rcases getAssigned_mem_or_nil rs k with he | ⟨sess, hmem, he⟩
  · simp [he]
  · rw [he]; exact h _ hmem

theorem getAssigned_length_le_cond (rs : Results) (k : String) (S : List String)
    (m : Nat) (hk : k ∈ S)
    (h : ∀ p ∈ rs, p.1 ∈ S → p.2.assigned.length ≤ m) :
    (getAssigned rs k).length ≤ m := by
  rcases getAssigned_mem_or_nil rs k with he | ⟨sess, hmem, he⟩
  · simp [he]
  · rw [he]; exact h _ hmem hk

theorem getD_mod_mem (l : List String) (i : Nat) (h : ¬ l = []) :
    l.getD (i % l.length) "" ∈ l := by
  have hlen : 0 < l.length := List.length_pos.mpr h
  have hm : i % l.length < l.length := Nat.mod_lt _ hlen
  rw [List.getD_eq_getElem?_getD, List.getElem?_eq_getElem hm]
  simp

theorem openKeys_subset (rs : Results) (k : String) (hk : k ∈ openKeys rs) :
    k ∈ keysOf rs := by
  rw [openKeys] at hk
  rcases List.mem_map.mp hk with ⟨q, hq, rfl⟩
  exact List.mem_map_of_mem _ (List.mem_of_mem_filter hq)

theorem openKeys_length_lt (rs : Results) (k : String)
    (hnd : (keysOf rs).Nodup) (hk : k ∈ openKeys rs) :
    (getAssigned rs k).length < 3 := by
  rw [openKeys] at hk
  rcases List.mem_map.mp hk with ⟨q, hq, rfl⟩
  rw [List.mem_filter] at hq
  rw [getAssigned_eq_of_findSession _ _ _ (findSession_of_mem_nodup rs q hq.1 hnd)]
  simpa using hq.2

theorem len3_assignLoop (key : String) (c : CourseRow) :
    ∀ (fuel : Nat) (cands : List StaffRow) (st : SchedState),
    (∀ p ∈ st.results, p.2.assigned.length ≤ 3) →
    (getAssigned st.results key).length ≤ 2 →
    (∀ p ∈ (assignLoop key c fuel cands st).results, p.2.assigned.length ≤ 3) ∧
      (getAssigned (assignLoop key c fuel cands st).results key).length ≤ 2 := by
  intro fuel
  induction fuel with
  | zero => intro cands st h1 h2; exact ⟨h1, h2⟩
  | succ n ih =>
      intro cands st h1 h2
      rw [assignLoop]
      split
      · next hguard =>
          split
          · exact ⟨h1, h2⟩
          · next chosen heq =>
              apply ih
              · apply length_le_of_modify _ _ _ _ h1
                have hg := hguard.1
                simp only [List.length_append, List.length_singleton]
                omega
              · rw [results_placeOne, getAssigned, findSession_modify_self]
                cases hs : findSession st.results key with
                | none => simp
                | some sess =>
                    have hlen : sess.assigned.length < 2 := by
                      rw [getAssigned_eq_of_findSession _ _ _ hs] at hguard
                      exact hguard.1
                    simp only [Option.map_some']
                    simp only [List.length_append, List.length_singleton]
                    omega
      · exact ⟨h1, h2⟩

theorem len3_ensureVet (staffL : List StaffRow) (slot key : String)
    (st : SchedState)
    (h1 : ∀ p ∈ st.results, p.2.assigned.length ≤ 3)
    (h2 : (getAssigned st.results key).length ≤ 2) :
    ∀ p ∈ (ensureVet staffL slot key st).results, p.2.assigned.length ≤ 3 := by
  rw [ensureVet]
  split
  · exact h1
  · cases hl : staffL.filter (fun s =>
        sVet s && sAvail s slot && decide (sName s ∉ st.placed)) with
    | nil => exact h1
    | cons v rest =>
        show ∀ p ∈ (placeOne st key ⟨sName v, true⟩).results, p.2.assigned.length ≤ 3
        apply length_le_of_modify _ _ _ _ h1
        simp only [List.length_append, List.length_singleton]
        omega

theorem len3_step1Session (staffL : List StaffRow) (st : SchedState)
    (p : String × CourseRow)
    (h1 : ∀ q ∈ st.results, q.2.assigned.length ≤ 3) :
    ∀ q ∈ (step1Session staffL st p).results, q.2.assigned.length ≤ 3 := by
  rw [step1Session]
  have hup : ∀ q ∈ upsertResult st.results (sessionKey p.1 p.2) ⟨p.2, []⟩,
      q.2.assigned.length ≤ 3 := by
    intro q hq
    rcases mem_upsert _ _ _ _ hq with h | rfl
    · exact h1 q h
    · simp
  have hget : (getAssigned (upsertResult st.results (sessionKey p.1 p.2) ⟨p.2, []⟩)
      (sessionKey p.1 p.2)).length ≤ 2 := by
    rw [getAssigned_eq_of_findSession _ _ _ (findSession_upsert_self _ _ _)]
    simp
  obtain ⟨ha, hb⟩ := len3_assignLoop (sessionKey p.1 p.2) p.2 2 _
    ({ st with results := upsertResult st.results (sessionKey p.1 p.2) ⟨p.2, []⟩ })
    hup hget
  exact len3_ensureVet staffL p.1 (sessionKey p.1 p.2) _ ha hb

theorem len3_step1 (staffL : List StaffRow)
    (sessions : List (String × CourseRow)) :
    ∀ q ∈ (step1 staffL sessions).results, q.2.assigned.length ≤ 3 := by
  rw [step1]
  suffices h : ∀ st, (∀ q ∈ st.results, q.2.assigned.length ≤ 3) →
      ∀ q ∈ (sessions.foldl (step1Session staffL) st).results,
        q.2.assigned.length ≤ 3 by
    exact h ⟨[], [], []⟩ (by intro q hq; simp at hq)
  induction sessions with
  | nil => intro st h; exact h
  | cons p rest ih =>
      intro st h
      rw [List.foldl_cons]
      exact ih _ (len3_step1Session staffL st p h)

theorem keysOf_placeOne (st : SchedState) (k : String) (a : Assigned) :
    keysOf (placeOne st k a).results = keysOf st.results := by
  rw [results_placeOne, keysOf_modifyAssigned]

theorem len3_step2Go (r : Nat → Nat) :
    ∀ (us : List StaffRow) (n : Nat) (st : SchedState),
    (keysOf st.results).Nodup →
    (∀ q ∈ st.results, q.2.assigned.length ≤ 3) →
    ∀ q ∈ (step2Go r us n st).results, q.2.assigned.length ≤ 3 := by
  intro us
  induction us with
  | nil => intro n st _ h; exact h
  | cons s rest ih =>
      intro n st hknd h
      rw [step2Go]
      split
      · exact h
      · next hne =>
          apply ih
          · rw [keysOf_placeOne]; exact hknd
          · apply length_le_of_modify _ _ _ _ h
            have hlt := openKeys_length_lt st.results
              (List.getD (openKeys st.results) (r n % (openKeys st.results).length) "")
              hknd (getD_mod_mem _ _ hne)
            simp only [List.length_append, List.length_singleton]
            omega

theorem keysOf_step3Key (vets : List StaffRow) (st : SchedState) (key : String) :
    keysOf (step3Key vets st key).results = keysOf st.results := by
  rcases step3Key_cases vets st key with heq | ⟨v, _, heq⟩ |
    ⟨donor, dvet, _, _, heq⟩
  · rw [heq]
  · rw [heq, keysOf_placeOne]
  · rw [heq]
    show keysOf (modifyAssigned (modifyAssigned st.results donor
      (fun l => l.erase dvet)) key (fun l => l ++ [dvet])) = keysOf st.results
    rw [keysOf_modifyAssigned, keysOf_modifyAssigned]

theorem len4_step3Key (vets : List StaffRow) (st : SchedState) (k : String)
    (S : List String) (hkS : k ∈ S)
    (h4 : ∀ q ∈ st.results, q.2.assigned.length ≤ 4)
    (h3 : ∀ q ∈ st.results, q.1 ∈ S → q.2.assigned.length ≤ 3) :
    (∀ q ∈ (step3Key vets st k).results, q.2.assigned.length ≤ 4) ∧
      (∀ q ∈ (step3Key vets st k).results, q.1 ∈ S → k ∉ S →
        q.2.assigned.length ≤ 3) := by
  have hget3 : (getAssigned st.results k).length ≤ 3 :=
    getAssigned_length_le_cond st.results k S 3 hkS h3
  rcases step3Key_cases vets st k with heq | ⟨v, _, heq⟩ |
    ⟨donor, dvet, _, _, heq⟩ <;> rw [heq]
  · exact ⟨h4, fun q hq hqS _ => h3 q hq hqS⟩
  · constructor
    · apply length_le_of_modify _ _ _ _ h4
      simp only [List.length_append, List.length_singleton]
      omega
    · intro q hq hqS hknS
      exact absurd hkS hknS
  · constructor
    · show ∀ q ∈ modifyAssigned (modifyAssigned st.results donor
        (fun l => l.erase dvet)) k (fun l => l ++ [dvet]),
        q.2.assigned.length ≤ 4
      have h4e : ∀ q ∈ modifyAssigned st.results donor
          (fun l => l.erase dvet), q.2.assigned.length ≤ 4 := by
        apply length_le_of_modify _ _ _ _ h4
        calc ((getAssigned st.results donor).erase dvet).length
            ≤ (getAssigned st.results donor).length :=
              (List.erase_sublist _ _).length_le
          _ ≤ 4 := getAssigned_length_le _ _ _ h4
      apply length_le_of_modify _ _ _ _ h4e
      have hle : (getAssigned (modifyAssigned st.results donor
          (fun l => l.erase dvet)) k).length ≤
          (getAssigned st.results k).length :=
        getAssigned_modify_le _ _ _ _
          (fun l => (List.erase_sublist _ _).length_le)
      simp only [List.length_append, List.length_singleton]
      omega
    · intro q hq hqS hknS
      exact absurd hkS hknS

theorem len4_step3_aux (vets : List StaffRow) :
    ∀ (ks : List String) (st : SchedState), ks.Nodup →
    (∀ q ∈ st.results, q.2.assigned.length ≤ 4) →
    (∀ q ∈ st.results, q.1 ∈ ks → q.2.assigned.length ≤ 3) →
    ∀ q ∈ (ks.foldl (step3Key vets) st).results, q.2.assigned.length ≤ 4 := by
  intro ks
  induction ks with
  | nil => intro st _ h4 _; exact h4
  | cons k rest ih =>
      intro st hksnd h4 h3
      rw [List.nodup_cons] at hksnd
      rw [List.foldl_cons]
      obtain ⟨h4', hcond'⟩ := len4_step3Key vets st k (k :: rest)
        (List.mem_cons_self _ _) h4 h3
      apply ih _ hksnd.2 h4'
      intro q hq hqr
      rcases step3Key_cases vets st k with heq | ⟨v, _, heq⟩ |
        ⟨donor, dvet, _, _, heq⟩
      · rw [heq] at hq
        exact h3 q hq (List.mem_cons_of_mem _ hqr)
      · rw [heq] at hq
        have hres : q ∈ modifyAssigned st.results k
            (fun l => l ++ [⟨sName v, true⟩]) := hq
        exact length_le_of_modify_cond st.results k _ 3 rest
          (fun q hq hqr => h3 q hq (List.mem_cons_of_mem _ hqr))
          (fun hkr => absurd hkr hksnd.1) q hres hqr
      · rw [heq] at hq
        have hres : q ∈ modifyAssigned (modifyAssigned st.results donor
            (fun l => l.erase dvet)) k (fun l => l ++ [dvet]) := hq
        have h3e : ∀ q ∈ modifyAssigned st.results donor
            (fun l => l.erase dvet), q.1 ∈ rest → q.2.assigned.length ≤ 3 := by
          apply length_le_of_modify_cond _ _ _ _ rest
            (fun q hq hqr => h3 q hq (List.mem_cons_of_mem _ hqr))
          intro hdr
          calc ((getAssigned st.results donor).erase dvet).length
              ≤ (getAssigned st.results donor).length :=
                (List.erase_sublist _ _).length_le
            _ ≤ 3 := getAssigned_length_le_cond _ _ (k :: rest) _
                (List.mem_cons_of_mem _ hdr) h3
        exact length_le_of_modify_cond _ k _ 3 rest h3e
          (fun hkr => absurd hkr hksnd.1) q hres hqr

theorem len4_generate_schedule (r : Nat → Nat) (cr : List CourseRow)
    (sr : List StaffRow) :
    ∀ q ∈ (generate_schedule r cr sr).results, q.2.assigned.length ≤ 4 := by
  rw [generate_schedule, step3]
  have hInv2 : Inv (step2 r (buildStaff sr) (afterStep1 cr sr)) :=
    Inv_step2 r _ _ (Inv_step1 _ _) (buildStaff_names_nodup sr)
  have h3 : ∀ q ∈ (step2 r (buildStaff sr) (afterStep1 cr sr)).results,
      q.2.assigned.length ≤ 3 := by
    rw [step2]
    apply len3_step2Go
    · exact (Inv_step1 _ _).1
    · exact len3_step1 _ _
  apply len4_step3_aux
  · exact hInv2.1
  · intro q hq
    exact le_trans (h3 q hq) (by omega)
  · intro q hq _
    exact h3 q hq

end OpSTEM

namespace OpSTEM

open List

theorem availInv_upsert (staffL : List StaffRow) (rs : Results) (k : String)
    (c : CourseRow) (h : AvailInv staffL rs) :
    AvailInv staffL (upsertResult rs k ⟨c, []⟩) := by
  intro q hq a ha
  rcases mem_upsert _ _ _ _ hq with hm | rfl
  · exact h q hm a ha
  · simp at ha

theorem availInv_modify_append (staffL : List StaffRow) (rs : Results)
    (k : String) (a : Assigned) (h : AvailInv staffL rs)
    (ha : ∀ sess, findSession rs k = some sess → AvailOK staffL sess.meta a) :
    AvailInv staffL (modifyAssigned rs k (fun l => l ++ [a])) := by
  induction rs with
  | nil => intro q hq; simp [modifyAssigned] at hq
  | cons p rest ih =>
      by_cases hp : p.1 = k
      · rw [modifyAssigned, if_pos hp]
        intro q hq x hx
        rcases List.mem_cons.mp hq with rfl | hq
        · rcases List.mem_append.mp hx with hx | hx
          · exact h p (List.mem_cons_self _ _) x hx
          · rw [List.mem_singleton] at hx
            subst hx
            exact ha p.2 (by rw [findSession_cons, if_pos hp])
        · exact h q (List.mem_cons_of_mem _ hq) x hx
      · rw [modifyAssigned, if_neg hp]
        intro q hq x hx
        rcases List.mem_cons.mp hq with rfl | hq
        · exact h q (List.mem_cons_self _ _) x hx
        · exact ih (fun q hq x hx => h q (List.mem_cons_of_mem _ hq) x hx)
            (fun sess hs => ha sess (by rw [findSession_cons, if_neg hp]; exact hs))
            q hq x hx

theorem meta_modify (rs : Results) (k k' : String)
    (f : List Assigned → List Assigned) (sess : Session)
    (h : findSession (modifyAssigned rs k f) k' = some sess) :
    ∃ sess0, findSession rs k' = some sess0 ∧ sess.meta = sess0.meta := by
  by_cases hk : k' = k
  · subst hk
    rw [findSession_modify_self] at h
    rcases Option.map_eq_some'.mp h with ⟨sess0, hs0, h2⟩
    exact ⟨sess0, hs0, by rw [← h2]⟩
  · rw [findSession_modify_ne _ _ _ _ hk] at h
    exact ⟨sess, h, rfl⟩

theorem avail_assignLoop (staffL : List StaffRow) (key : String) (c : CourseRow) :
    ∀ (fuel : Nat) (cands : List StaffRow) (st : SchedState),
    AvailInv staffL st.results →
    (∀ sess, findSession st.results key = some sess → sess.meta = c) →
    (∀ s ∈ cands, s ∈ staffL ∧ sAvail s (rowSlot c) = true) →
    AvailInv staffL (assignLoop key c fuel cands st).results ∧
      (∀ sess, findSession (assignLoop key c fuel cands st).results key = some sess →
        sess.meta = c) := by
  intro fuel
  induction fuel with
  | zero => intro cands st h hm _; exact ⟨h, hm⟩
  | succ n ih =>
      intro cands st h hm hcands
      rw [assignLoop]
      split
      · split
        · exact ⟨h, hm⟩
        · next chosen heq =>
            have hchosen := hcands chosen (pickBest_mem _ _ _ heq)
            apply ih
            · rw [results_placeOne]
              apply availInv_modify_append staffL st.results key _ h
              intro sess hs
              rw [hm sess hs]
              exact ⟨chosen, hchosen.1, rfl, hchosen.2⟩
            · intro sess hs
              rw [results_placeOne] at hs
              rcases meta_modify _ _ _ _ _ hs with ⟨sess0, hs0, hmeq⟩
              rw [hmeq]
              exact hm sess0 hs0
            · intro s hs
              exact hcands s (List.mem_of_mem_filter hs)
      · exact ⟨h, hm⟩

theorem avail_ensureVet (staffL : List StaffRow) (slot key : String)
    (st : SchedState) (c : CourseRow) (hslot : slot = rowSlot c)
    (h : AvailInv staffL st.results)
    (hm : ∀ sess, findSession st.results key = some sess → sess.meta = c) :
    AvailInv staffL (ensureVet staffL slot key st).results := by
  rw [ensureVet]
  split
  · exact h
  · cases hl : staffL.filter (fun s =>
        sVet s && sAvail s slot && decide (sName s ∉ st.placed)) with
    | nil => exact h
    | cons v rest =>
        show AvailInv staffL (placeOne st key ⟨sName v, true⟩).results
        rw [results_placeOne]
        apply availInv_modify_append staffL st.results key _ h
        intro sess hs
        rw [hm sess hs]
        have hv : v ∈ staffL.filter (fun s =>
            sVet s && sAvail s slot && decide (sName s ∉ st.placed)) := by
          rw [hl]; exact List.mem_cons_self _ _
        rw [List.mem_filter] at hv
        have h2 := hv.2
        simp only [Bool.and_eq_true, decide_eq_true_eq] at h2
        exact ⟨v, hv.1, rfl, by rw [← hslot]; exact h2.1.2⟩

theorem avail_step1Session (staffL : List StaffRow) (st : SchedState)
    (p : String × CourseRow) (hslot : p.1 = rowSlot p.2)
    (h : AvailInv staffL st.results) :
    AvailInv staffL (step1Session staffL st p).results := by
  rw [step1Session]
  have hup : AvailInv staffL
      (upsertResult st.results (sessionKey p.1 p.2) ⟨p.2, []⟩) :=
    availInv_upsert staffL st.results _ p.2 h
  have hmeta : ∀ sess, findSession
      (upsertResult st.results (sessionKey p.1 p.2) ⟨p.2, []⟩)
      (sessionKey p.1 p.2) = some sess → sess.meta = p.2 := by
    intro sess hs
    rw [findSession_upsert_self] at hs
    cases hs
    rfl
  have hcands : ∀ s ∈ staffL.filter (fun s =>
      sAvail s p.1 && decide (sName s ∉
        ({ st with results := upsertResult st.results (sessionKey p.1 p.2) ⟨p.2, []⟩ } :
          SchedState).placed)),
      s ∈ staffL ∧ sAvail s (rowSlot p.2) = true := by
    intro s hs
    rw [List.mem_filter] at hs
    have h2 := hs.2
    simp only [Bool.and_eq_true, decide_eq_true_eq] at h2
    exact ⟨hs.1, by rw [← hslot]; exact h2.1⟩
  obtain ⟨ha, hb⟩ := avail_assignLoop staffL (sessionKey p.1 p.2) p.2 2 _
    ({ st with results := upsertResult st.results (sessionKey p.1 p.2) ⟨p.2, []⟩ })
    hup hmeta hcands
  exact avail_ensureVet staffL p.1 (sessionKey p.1 p.2) _ p.2 hslot ha hb

theorem avail_step1 (staffL : List StaffRow)
    (sessions : List (String × CourseRow))
    (hs : ∀ p ∈ sessions, p.1 = rowSlot p.2) :
    AvailInv staffL (step1 staffL sessions).results := by
  rw [step1]
  suffices h : ∀ st, AvailInv staffL st.results →
      AvailInv staffL ((sessions.foldl (step1Session staffL) st)).results by
    exact h ⟨[], [], []⟩ (by intro q hq; simp at hq)
  induction sessions with
  | nil => intro st h; exact h
  | cons p rest ih =>
      intro st h
      rw [List.foldl_cons]
      exact ih (fun q hq => hs q (List.mem_cons_of_mem _ hq)) _
        (avail_step1Session staffL st p (hs p (List.mem_cons_self _ _)) h)

end OpSTEM

namespace OpSTEM

open List

theorem sessionNames_append (rs1 rs2 : Results) :
    sessionNames (rs1 ++ rs2) = sessionNames rs1 ++ sessionNames rs2 := by
  simp [sessionNames]

theorem upsert_fresh (rs : Results) (k : String) (v : Session)
    (h : k ∉ keysOf rs) : upsertResult rs k v = rs ++ [(k, v)] := by
  induction rs with
  | nil => rfl
  | cons p rest ih =>
      simp only [keysOf_cons, List.mem_cons] at h
      push_neg at h
      have hp : ¬ p.1 = k := fun hh => h.1 hh.symm
      rw [upsertResult, if_neg hp, ih h.2, List.cons_append]

theorem entryCount_upsert_fresh (rs : Results) (k : String) (c : CourseRow)
    (h : k ∉ keysOf rs) :
    entryCount (upsertResult rs k ⟨c, []⟩) = entryCount rs := by
  rw [upsert_fresh rs k _ h, entryCount, sessionNames_append]
  simp [sessionNames, entryCount]

theorem entryCount_placeOne (st : SchedState) (k : String) (a : Assigned)
    (hk : k ∈ keysOf st.results) :
    entryCount (placeOne st k a).results = entryCount st.results + 1 := by
  have h := (sessionNames_modify_append st.results k a hk).length_eq
  rw [results_placeOne, entryCount, entryCount, h, List.length_cons]

theorem mem_keysOf_upsert (rs : Results) (k : String) (v : Session) :
    k ∈ keysOf (upsertResult rs k v) := by
  rw [keysOf_upsert]
  split
  · next h => exact h
  · simp

theorem loadSum_placeOne (st : SchedState) (k : String) (a : Assigned) :
    loadSum (placeOne st k a).load = loadSum st.load + 1 := by
  rw [load_placeOne, loadSum_incLoad]

theorem cnt_assignLoop (key : String) (c : CourseRow) :
    ∀ (fuel : Nat) (cands : List StaffRow) (st : SchedState),
    key ∈ keysOf st.results →
    loadSum st.load = entryCount st.results →
    loadSum (assignLoop key c fuel cands st).load =
        entryCount (assignLoop key c fuel cands st).results ∧
      keysOf (assignLoop key c fuel cands st).results = keysOf st.results := by
  intro fuel
  induction fuel with
  | zero => intro cands st _ h; exact ⟨h, rfl⟩
  | succ n ih =>
      intro cands st hk h
      rw [assignLoop]
      split
      · split
        · exact ⟨h, rfl⟩
        · next chosen heq =>
            obtain ⟨h1, h2⟩ := ih (cands.filter (fun s => sName s ≠ sName chosen))
              (placeOne st key ⟨sName chosen, sVet chosen⟩)
              (by rw [keysOf_placeOne]; exact hk)
              (by rw [loadSum_placeOne, entryCount_placeOne st key _ hk, h])
            refine ⟨h1, ?_⟩
            rw [h2, keysOf_placeOne]
      · exact ⟨h, rfl⟩

theorem cnt_ensureVet (staffL : List StaffRow) (slot key : String)
    (st : SchedState) (hk : key ∈ keysOf st.results)
    (h : loadSum st.load = entryCount st.results) :
    loadSum (ensureVet staffL slot key st).load =
        entryCount (ensureVet staffL slot key st).results ∧
      keysOf (ensureVet staffL slot key st).results = keysOf st.results := by
  rw [ensureVet]
  split
  · exact ⟨h, rfl⟩
  · cases hl : staffL.filter (fun s =>
        sVet s && sAvail s slot && decide (sName s ∉ st.placed)) with
    | nil => exact ⟨h, rfl⟩
    | cons v rest =>
        refine ⟨?_, ?_⟩
        · show loadSum (placeOne st key ⟨sName v, true⟩).load =
            entryCount (placeOne st key ⟨sName v, true⟩).results
          rw [loadSum_placeOne, entryCount_placeOne st key _ hk, h]
        · show keysOf (placeOne st key ⟨sName v, true⟩).results = keysOf st.results
          rw [keysOf_placeOne]

theorem cnt_step1Session (staffL : List StaffRow) (st : SchedState)
    (p : String × CourseRow)
    (hfresh : sessionKey p.1 p.2 ∉ keysOf st.results)
    (h : loadSum st.load = entryCount st.results) :
    loadSum (step1Session staffL st p).load =
        entryCount (step1Session staffL st p).results ∧
      keysOf (step1Session staffL st p).results =
        keysOf st.results ++ [sessionKey p.1 p.2] := by
  rw [step1Session]
  have hk1 : sessionKey p.1 p.2 ∈ keysOf
      (upsertResult st.results (sessionKey p.1 p.2) ⟨p.2, []⟩) :=
    mem_keysOf_upsert _ _ _
  have hcnt1 : loadSum st.load = entryCount
      (upsertResult st.results (sessionKey p.1 p.2) ⟨p.2, []⟩) := by
    rw [entryCount_upsert_fresh _ _ _ hfresh, h]
  obtain ⟨ha, hb⟩ := cnt_assignLoop (sessionKey p.1 p.2) p.2 2 _
    ({ st with results := upsertResult st.results (sessionKey p.1 p.2) ⟨p.2, []⟩ })
    hk1 hcnt1
  obtain ⟨hc, hd⟩ := cnt_ensureVet staffL p.1 (sessionKey p.1 p.2) _
    (by rw [hb]; exact hk1) ha
  refine ⟨hc, ?_⟩
  rw [hd, hb]
  show keysOf (upsertResult st.results (sessionKey p.1 p.2) ⟨p.2, []⟩) = _
  rw [keysOf_upsert]
  rw [if_neg hfresh]

theorem cnt_step1_aux (staffL : List StaffRow) :
    ∀ (sessions : List (String × CourseRow)) (st : SchedState),
    (∀ k ∈ sessions.map (fun p => sessionKey p.1 p.2), k ∉ keysOf st.results) →
    (sessions.map (fun p => sessionKey p.1 p.2)).Nodup →
    loadSum st.load = entryCount st.results →
    loadSum (sessions.foldl (step1Session staffL) st).load =
        entryCount (sessions.foldl (step1Session staffL) st).results ∧
      keysOf (sessions.foldl (step1Session staffL) st).results =
        keysOf st.results ++ sessions.map (fun p => sessionKey p.1 p.2) := by
  intro sessions
  induction sessions with
  | nil => intro st _ _ h; exact ⟨h, by simp⟩
  | cons p rest ih =>
      intro st hdisj hnd h
      rw [List.map_cons, List.nodup_cons] at hnd
      rw [List.foldl_cons]
      have hfresh : sessionKey p.1 p.2 ∉ keysOf st.results :=
        hdisj _ (by rw [List.map_cons]; exact List.mem_cons_self _ _)
      obtain ⟨h1, h2⟩ := cnt_step1Session staffL st p hfresh h
      have hdisj' : ∀ k ∈ rest.map (fun p => sessionKey p.1 p.2),
          k ∉ keysOf (step1Session staffL st p).results := by
        intro k hkr
        rw [h2, List.mem_append, List.mem_singleton]
        push_neg
        refine ⟨hdisj k (by rw [List.map_cons]; exact List.mem_cons_of_mem _ hkr), ?_⟩
        intro hh
        exact hnd.1 (hh ▸ hkr)
      obtain ⟨h3, h4⟩ := ih (step1Session staffL st p) hdisj' hnd.2 h1
      refine ⟨h3, ?_⟩
      rw [h4, h2]
      simp

theorem cnt_step2Go (r : Nat → Nat) :
    ∀ (us : List StaffRow) (n : Nat) (st : SchedState),
    loadSum st.load = entryCount st.results →
    loadSum (step2Go r us n st).load = entryCount (step2Go r us n st).results ∧
      keysOf (step2Go r us n st).results = keysOf st.results := by
  intro us
  induction us with
  | nil => intro n st h; exact ⟨h, rfl⟩
  | cons s rest ih =>
      intro n st h
      rw [step2Go]
      split
      · exact ⟨h, rfl⟩
      · next hne =>
          have hk : (openKeys st.results).getD
              (r n % (openKeys st.results).length) "" ∈ keysOf st.results :=
            openKeys_subset _ _ (getD_mod_mem _ _ hne)
          obtain ⟨h1, h2⟩ := ih (n + 1)
            (placeOne st _ ⟨sName s, sVet s⟩)
            (by rw [loadSum_placeOne, entryCount_placeOne st _ _ hk, h])
          refine ⟨h1, ?_⟩
          rw [h2, keysOf_placeOne]

theorem cnt_step3Key (vets : List StaffRow) (st : SchedState) (key : String)
    (hk : key ∈ keysOf st.results) (hknd : (keysOf st.results).Nodup)
    (h : loadSum st.load = entryCount st.results) :
    loadSum (step3Key vets st key).load = entryCount (step3Key vets st key).results := by
  rcases step3Key_cases vets st key with heq | ⟨v, _, heq⟩ |
    ⟨donor, dvet, hd, hdv, heq⟩ <;> rw [heq]
  · exact h
  · rw [loadSum_placeOne, entryCount_placeOne st key _ hk, h]
  · obtain ⟨dsess, hds, hcnt⟩ := findDonor_some st.results donor hd hknd
    have hmemv : dvet ∈ dsess.assigned := by
      rw [getAssigned_eq_of_findSession _ _ _ hds] at hdv
      exact List.mem_of_find?_eq_some hdv
    have hA := sessionNames_modify_erase st.results donor dsess dvet hds hmemv
    have hkey1 : key ∈ keysOf (modifyAssigned st.results donor
        (fun l => l.erase dvet)) := by
      rw [keysOf_modifyAssigned]; exact hk
    have hB := sessionNames_modify_append
      (modifyAssigned st.results donor (fun l => l.erase dvet)) key dvet hkey1
    show loadSum st.load = entryCount (modifyAssigned (modifyAssigned st.results donor
      (fun l => l.erase dvet)) key (fun l => l ++ [dvet]))
    rw [h, entryCount, entryCount, hB.length_eq, hA.length_eq]

theorem cnt_step3_aux (vets : List StaffRow) :
    ∀ (ks : List String) (st : SchedState),
    (∀ k ∈ ks, k ∈ keysOf st.results) →
    (keysOf st.results).Nodup →
    loadSum st.load = entryCount st.results →
    loadSum ((ks.foldl (step3Key vets) st)).load =
      entryCount ((ks.foldl (step3Key vets) st)).results := by
  intro ks
  induction ks with
  | nil => intro st _ _ h; exact h
  | cons k rest ih =>
      intro st hmem hknd h
      rw [List.foldl_cons]
      apply ih
      · intro x hx
        rw [keysOf_step3Key]
        exact hmem x (List.mem_cons_of_mem _ hx)
      · rw [keysOf_step3Key]; exact hknd
      · exact cnt_step3Key vets st k (hmem k (List.mem_cons_self _ _)) hknd h

theorem cnt_generate_schedule (r : Nat → Nat) (cr : List CourseRow)
    (sr : List StaffRow)
    (hnd : ((buildSessions cr).map (fun p => sessionKey p.1 p.2)).Nodup) :
    loadSum (generate_schedule r cr sr).load =
      entryCount (generate_schedule r cr sr).results := by
  rw [generate_schedule, step3]
  have hInv2 : Inv (step2 r (buildStaff sr) (afterStep1 cr sr)) :=
    Inv_step2 r _ _ (Inv_step1 _ _) (buildStaff_names_nodup sr)
  obtain ⟨h1, _⟩ := cnt_step1_aux (buildStaff sr) (buildSessions cr) ⟨[], [], []⟩
    (by intro k _ hk; simp [keysOf] at hk) hnd (by simp [loadSum, entryCount, sessionNames])
  obtain ⟨h2, _⟩ := cnt_step2Go r
    ((buildStaff sr).filter (fun s => decide (sName s ∉ (afterStep1 cr sr).placed)))
    0 (afterStep1 cr sr) h1
  apply cnt_step3_aux
  · intro k hk; exact hk
  · exact hInv2.1
  · exact h2

end OpSTEM

namespace OpSTEM

open List

theorem countVet_pos_find? (l : List Assigned) (h : 1 ≤ countVet l) :
    ∃ d, l.find? (·.veteran) = some d := by
  cases hf : l.find? (·.veteran) with
  | some d => exact ⟨d, rfl⟩
  | none =>
      exfalso
      have hall := List.find?_eq_none.mp hf
      have hz : countVet l = 0 := by
        rw [countVet, List.length_eq_zero, List.filter_eq_nil_iff]
        intro a ha
        simpa using hall a ha
      omega

theorem find?_veteran_mem_true (l : List Assigned) (d : Assigned)
    (h : l.find? (·.veteran) = some d) : d ∈ l ∧ d.veteran = true :=
  ⟨List.mem_of_find?_eq_some h, by simpa using List.find?_some h⟩

theorem countVet_erase (l : List Assigned) (d : Assigned) (hd : d ∈ l)
    (hv : d.veteran = true) : countVet (l.erase d) + 1 = countVet l := by
  have hp := List.perm_cons_erase hd
  have h2 := (hp.filter (·.veteran)).length_eq
  rw [List.filter_cons] at h2
  simp only [hv, if_true] at h2
  rw [countVet, countVet, h2, List.length_cons]

theorem countVet_eq_zero_of_hasVet_false (l : List Assigned)
    (h : hasVet l = false) : countVet l = 0 := by
  rw [countVet, List.length_eq_zero, List.filter_eq_nil_iff]
  intro a ha
  rw [hasVet, List.any_eq_false] at h
  simpa using h a ha


end OpSTEM

namespace OpSTEM

open List

theorem nodup_of_sessionNames_nodup (rs : Results)
    (h : (sessionNames rs).Nodup) (p : String × Session) (hp : p ∈ rs) :
    (p.2.assigned.map (·.name)).Nodup := by
  induction rs with
  | nil => simp at hp
  | cons q rest ih =>
      rw [sessionNames_cons] at h
      rcases List.mem_cons.mp hp with rfl | hp
      · exact (List.nodup_append.mp h).1
      · exact ih (List.nodup_append.mp h).2.1 hp

/-- Claim C1 counterexample: one session whose required column reads
"1" and two available staff; the base loop fills the session to 2
assigned staff, above max(1, requiredStaffCount) = 1.  The engine never
reads the required column. -/
theorem c1_counterexample :
    ¬ ((getAssigned (generate_schedule oracle0 [cRowA] [staffA, staffB]).results
        "9:10AM-11:05AM|C|1").length ≤ max 1 (requiredStaffCount cRowA)) := by
  decide

/-- Claim C1 amended: the engine ignores the required-staff column; the
base pass fills a session to 2, the veteran top-up can add a third
member, the fallback fill only targets sessions below 3, and the
rebalance pass appends at most one veteran per session - so every
assigned list in the output has length at most 4. -/
theorem c1_amended (r : Nat → Nat) (cr : List CourseRow) (sr : List StaffRow)
    (q : String × Session) (hq : q ∈ (generate_schedule r cr sr).results) :
    q.2.assigned.length ≤ 4 :=
  len4_generate_schedule r cr sr q hq

theorem c1_witness :
    (("9:10AM-11:05AM|C|1",
      (⟨cRowA, [⟨"A", false⟩]⟩ : Session)) : String × Session).2.assigned.length ≤ 4 :=
  c1_amended oracle0 [cRowA] [staffA] _ (by decide)

/-- Claim C2 counterexample: Bob marks only the first slot available;
the only session is in the second slot, and the fallback fill places Bob
into it anyway, so the output contains an assigned member whose record
did not mark that slot available. -/
theorem c2_counterexample :
    ¬ (∀ q ∈ (generate_schedule oracle0 [cRowT2] [staffBob]).results,
        ∀ a ∈ q.2.assigned, ∃ s ∈ [staffBob],
          sName s = a.name ∧ sAvail s (rowSlot q.2.meta) = true) := by
  decide

/-- Claim C2 amended: the base-assignment pass (including its veteran
top-up) respects availability - after step 1, every assigned member of
every session has an input staff row of that name that marked the
session slot available.  The fallback fill and the veteran rebalancing
do not check availability. -/
theorem c2_amended (cr : List CourseRow) (sr : List StaffRow)
    (q : String × Session) (hq : q ∈ (afterStep1 cr sr).results)
    (a : Assigned) (ha : a ∈ q.2.assigned) :
    ∃ s ∈ sr, sName s = a.name ∧ sAvail s (rowSlot q.2.meta) = true := by
  rw [afterStep1] at hq
  have hinv := avail_step1 (buildStaff sr) (buildSessions cr)
    (fun p hp => (mem_buildSessions cr p hp).1)
  rcases hinv q hq a ha with ⟨s, hsmem, hname, havail⟩
  exact ⟨s, mem_buildStaff sr s hsmem, hname, havail⟩

theorem c2_witness :
    ∃ s ∈ [staffA], sName s = "A" ∧
      sAvail s (rowSlot (⟨cRowA, [⟨"A", false⟩]⟩ : Session).meta) = true :=
  c2_amended [cRowA] [staffA] ("9:10AM-11:05AM|C|1", ⟨cRowA, [⟨"A", false⟩]⟩)
    (by decide) ⟨"A", false⟩ (by decide)

/-- Claim C3 counterexample: two rows of the same slot whose required
columns read "1" then "2" are visited in input order, violating the
claimed descending-requirement priority order already on the first
adjacent pair. -/
theorem c3_counterexample :
    specPriorityOrderedB [] (buildSessions [cRowA, cRowB]) = false := by
  decide

/-- Claim C3 amended: the base loop folds over the built session list in
input order - the visited course rows are exactly the input rows whose
resolved slot is canonical, kept in their original order; no sorting by
required count or candidate count takes place. -/
theorem c3_amended (cr : List CourseRow) :
    (buildSessions cr).map Prod.snd =
      cr.filter (fun c => decide (rowSlot c ∈ TIME_SLOTS)) :=
  buildSessions_map_snd cr

/-- Claim C4 counterexample: the loop hands pickBest the bare
_score_candidate value; the claimed bonus max(0, 4 - load) is absent,
so for a zero-score candidate at load 0 the claimed combined score is 4
while the score the loop uses is 0. -/
theorem c4_counterexample :
    score_candidate staffZ cRowA ∅ ≠ specLoadBonusScore staffZ cRowA ∅ 0 := by
  decide

/-- Claim C4 amended: no load-balance bonus exists and staff_load never
influences selection; the loop picks by the bare _score_candidate value:
the chosen candidate maximizes it over the pool, and every candidate
before it in pool order scores strictly lower (ties go to the earlier
candidate). -/
theorem c4_amended (c : CourseRow) (names : Finset String)
    (cands : List StaffRow) (chosen : StaffRow)
    (h : pickBest (fun s => score_candidate s c names) cands = some chosen) :
    chosen ∈ cands ∧
      (∀ s ∈ cands, score_candidate s c names ≤ score_candidate chosen c names) ∧
      ∃ l1 l2, cands = l1 ++ chosen :: l2 ∧
        ∀ s ∈ l1, score_candidate s c names < score_candidate chosen c names := by
  obtain ⟨⟨l1, l2, hsplit, hlt⟩, hle⟩ := pickBest_spec _ _ _ h
  exact ⟨pickBest_mem _ _ _ h, hle, l1, l2, hsplit, hlt⟩

theorem c4_witness :
    staffA ∈ [staffA, staffB] ∧
      (∀ s ∈ [staffA, staffB],
        score_candidate s cRowA ∅ ≤ score_candidate staffA cRowA ∅) ∧
      ∃ l1 l2, [staffA, staffB] = l1 ++ staffA :: l2 ∧
        ∀ s ∈ l1, score_candidate s cRowA ∅ < score_candidate staffA cRowA ∅ :=
  c4_amended cRowA ∅ [staffA, staffB] staffA (by decide)

/-- Claim C5 counterexample: the fallback fill always draws from the
random source; with two open sessions and one unplaced staff member,
two different draws on byte-identical input give different maps. -/
theorem c5_counterexample :
    generate_schedule oracle0 [cRowA, cRowB] [staffZ] ≠
      generate_schedule oracle1 [cRowA, cRowB] [staffZ] := by
  decide

/-- Claim C5 amended: there is no switch that disables the randomized
fill - it always consults the random source; but whenever the base pass
places every staff member, the fallback loop has nothing to place and
the output is identical for any two random sources. -/
theorem c5_amended (cr : List CourseRow) (sr : List StaffRow)
    (h : (buildStaff sr).filter
      (fun s => decide (sName s ∉ (afterStep1 cr sr).placed)) = [])
    (r1 r2 : Nat → Nat) :
    generate_schedule r1 cr sr = generate_schedule r2 cr sr := by
  rw [generate_schedule, generate_schedule, step2, step2, h]
  rfl

theorem c5_witness :
    generate_schedule oracle0 [cRowA] [staffA] =
      generate_schedule oracle1 [cRowA] [staffA] :=
  c5_amended [cRowA] [staffA] (by decide) oracle0 oracle1

/-- Claim C6 counterexample: with an empty course name and empty first
and second choices the claimed sum is 6 + 3 = 9, but _score_candidate
returns 0 because its course bonuses are guarded by a non-empty course
name. -/
theorem c6_counterexample :
    score_candidate staffZ cRowE ∅ ≠ spec_score staffZ cRowE ∅ := by
  decide

/-- Claim C6 amended: _score_candidate is a pure total function equal to
the claimed sum with the guard the code has: 6 for a first-choice match
and 3 for a second-choice match only when the trimmed, lowercased course
name is non-empty, plus 4 for each preferred partner already seated,
plus 2 for a veteran; 0 when nothing matches. -/
theorem c6_amended (staff : StaffRow) (c : CourseRow) (names : Finset String) :
    score_candidate staff c names = spec_score_guarded staff c names := by
  simp only [score_candidate, spec_score_guarded]
  rcases Finset.eq_empty_or_nonempty
      (({strTrim staff.pp1, strTrim staff.pp2, strTrim staff.pp3} : Finset String)
        ∩ names) with hov | hov
  · rw [hov]
    simp only [Finset.card_empty, Nat.mul_zero, Nat.add_zero]
    rw [if_neg (by simp : ¬ (∅ : Finset String).Nonempty)]
    split_ifs <;> omega
  · rw [if_pos hov]
    split_ifs <;> omega

/-- Claim C7 counterexample: two identical course rows collide on the
session key; the second row resets the assigned list of that key while
the load counter keeps the discarded placement, so the load total is 1
but the output holds 0 placements. -/
theorem c7_counterexample :
    loadSum (generate_schedule oracle0 [cRowA, cRowA] [staffA]).load ≠
      entryCount (generate_schedule oracle0 [cRowA, cRowA] [staffA]).results := by
  decide

/-- Claim C7 amended: when the session identity keys of the input are
pairwise distinct, the staff_load values summed over all staff equal the
total number of (session, staff) placements in the returned map. -/
theorem c7_amended (r : Nat → Nat) (cr : List CourseRow) (sr : List StaffRow)
    (hnd : ((buildSessions cr).map (fun p => sessionKey p.1 p.2)).Nodup) :
    loadSum (generate_schedule r cr sr).load =
      entryCount (generate_schedule r cr sr).results :=
  cnt_generate_schedule r cr sr hnd

theorem c7_witness :
    loadSum (generate_schedule oracle0 [cRowA] [staffA]).load =
      entryCount (generate_schedule oracle0 [cRowA] [staffA]).results :=
  c7_amended oracle0 [cRowA] [staffA] (by decide)

/-- Claim C8: whenever the rebalance pass performs a donor swap - the
visited session lacks a veteran, no unplaced veteran exists, and a donor
is found at that moment - the donor holds at least two veteran entries,
so immediately after the swap the donor session still holds at least one
veteran. -/
theorem c8_donor_keeps_veteran (vets : List StaffRow) (st : SchedState)
    (key donor : String)
    (hknd : (keysOf st.results).Nodup)
    (hnovet : hasVet (getAssigned st.results key) = false)
    (hnew : vets.filter (fun v => decide (sName v ∉ st.placed)) = [])
    (hdon : findDonor st.results = some donor) :
    1 ≤ countVet (getAssigned (step3Key vets st key).results donor) := by
  obtain ⟨dsess, hds, hcnt⟩ := findDonor_some st.results donor hdon hknd
  have hga : getAssigned st.results donor = dsess.assigned :=
    getAssigned_eq_of_findSession _ _ _ hds
  obtain ⟨dvet, hdv⟩ := countVet_pos_find? (getAssigned st.results donor)
    (by rw [hga]; omega)
  obtain ⟨hdm, hdvv⟩ := find?_veteran_mem_true _ _ hdv
  have hkd : ¬ donor = key := by
    intro hh
    have h0 := countVet_eq_zero_of_hasVet_false _ hnovet
    rw [← hh, hga] at h0
    omega
  have hstep : step3Key vets st key = donorSwap st key donor := by
    rw [step3Key, if_neg (by simp [hnovet]), hnew]
    simp only [List.head?_nil]
    rw [hdon]
  have hswap : donorSwap st key donor =
      { st with results := modifyAssigned (modifyAssigned st.results donor
          (fun l => l.erase dvet)) key (fun l => l ++ [dvet]) } := by
    rw [donorSwap, hdv]
  rw [hstep, hswap]
  show 1 ≤ countVet (getAssigned (modifyAssigned (modifyAssigned st.results donor
    (fun l => l.erase dvet)) key (fun l => l ++ [dvet])) donor)
  rw [getAssigned, findSession_modify_ne _ key donor _ hkd,
    findSession_modify_self, hds]
  simp only [Option.map_some']
  show 1 ≤ countVet (dsess.assigned.erase dvet)
  have hce := countVet_erase dsess.assigned dvet (by rwa [hga] at hdm) hdvv
  omega

theorem c8_witness :
    1 ≤ countVet (getAssigned (step3Key [] stW "k1").results "k2") :=
  c8_donor_keeps_veteran [] stW "k1" "k2" (by decide) (by decide) (by decide)
    (by decide)

/-- Claim C9: in every run, no staff name appears twice within the same
assigned list of any output session. -/
theorem c9_no_duplicate_in_session (r : Nat → Nat) (cr : List CourseRow)
    (sr : List StaffRow) (q : String × Session)
    (hq : q ∈ (generate_schedule r cr sr).results) :
    (q.2.assigned.map (·.name)).Nodup :=
  nodup_of_sessionNames_nodup _ (Inv_generate_schedule r cr sr).2.1 q hq

theorem c9_witness :
    ((("9:10AM-11:05AM|C|1",
      (⟨cRowA, [⟨"A", false⟩]⟩ : Session)) : String × Session).2.assigned.map
        (·.name)).Nodup :=
  c9_no_duplicate_in_session oracle0 [cRowA] [staffA] _ (by decide)

/-- Claim C10: across the whole output each staff name occurs at most
once in total - every pass places only staff absent from the
placed-overall set, and the donor swap moves its veteran entry instead
of copying it. -/
theorem c10_global_exclusivity (r : Nat → Nat) (cr : List CourseRow)
    (sr : List StaffRow) :
    (sessionNames (generate_schedule r cr sr).results).Nodup :=
  (Inv_generate_schedule r cr sr).2.1

end OpSTEM
